import Mathlib

/-!
Verification of the merge semantics in `dynaconf/utils/__init__.py`:
the recursive structural merge `object_merge`, the order-preserving
`deduplicate` routine, and the `Missing` sentinel.

Python values relevant to the merge engine are modelled by the inductive
type `PyVal` (integers, strings, `None`, lists, and string-keyed dicts,
the shapes exercised by the specification).  Dicts are association lists
in insertion order, mirroring CPython's ordered dicts; well-formed dicts
have pairwise distinct keys.  Python structural equality `==` (which is
order-insensitive on dict keys) is modelled by `pyEq` via a canonical
form that sorts dict entries by key.

The mutating functions are embedded functionally: `object_merge old new
unique` returns the value of `new` after the in-place merge.  A second,
store-based embedding (`mergeS`) with explicit addresses models the
mutation and aliasing behaviour and is used for the frame properties.
-/

set_option maxHeartbeats 1000000

/-- Model of the Python values handled by `object_merge`: scalars
(ints, strings, `None`), lists, and string-keyed dicts kept as
association lists in insertion order. -/
inductive PyVal where
  | int : Int → PyVal
  | str : String → PyVal
  | none : PyVal
  | list : List PyVal → PyVal
  | dict : List (String × PyVal) → PyVal

mutual

/-- Structural (syntactic) equality test on `PyVal`. -/
def pyBeq : PyVal → PyVal → Bool
  | PyVal.int a, PyVal.int b => a == b
  | PyVal.str a, PyVal.str b => a == b
  | PyVal.none, PyVal.none => true
  | PyVal.list a, PyVal.list b => pyBeqL a b
  | PyVal.dict a, PyVal.dict b => pyBeqE a b
  | _, _ => false

/-- Structural equality on lists of values. -/
def pyBeqL : List PyVal → List PyVal → Bool
  | [], [] => true
  | a :: as, b :: bs => pyBeq a b && pyBeqL as bs
  | _, _ => false

/-- Structural equality on dict entry lists. -/
def pyBeqE : List (String × PyVal) → List (String × PyVal) → Bool
  | (k, v) :: as, (k', v') :: bs => k == k' && pyBeq v v' && pyBeqE as bs
  | [], [] => true
  | _, _ => false

end

mutual

theorem pyBeq_iff : ∀ (a b : PyVal), pyBeq a b = true ↔ a = b
  | PyVal.int a, b => by cases b <;> simp [pyBeq]
  | PyVal.str a, b => by cases b <;> simp [pyBeq]
  | PyVal.none, b => by cases b <;> simp [pyBeq]
  | PyVal.list as, b => by
      cases b <;> simp [pyBeq]
      exact pyBeqL_iff as _
  | PyVal.dict es, b => by
      cases b <;> simp [pyBeq]
      exact pyBeqE_iff es _

theorem pyBeqL_iff : ∀ (a b : List PyVal), pyBeqL a b = true ↔ a = b
  | [], b => by cases b <;> simp [pyBeqL]
  | a :: as, b => by
      cases b <;> simp [pyBeqL, pyBeq_iff a, pyBeqL_iff as]

theorem pyBeqE_iff : ∀ (a b : List (String × PyVal)), pyBeqE a b = true ↔ a = b
  | [], b => by cases b <;> simp [pyBeqE]
  | (k, v) :: as, b => by
      cases b with
      | nil => simp [pyBeqE]
      | cons hd tl =>
          obtain ⟨k', v'⟩ := hd
          simp [pyBeqE, pyBeq_iff v, pyBeqE_iff as]

end

instance : DecidableEq PyVal := fun a b => decidable_of_iff (pyBeq a b = true) (pyBeq_iff a b)

mutual

/-- Size measure on `PyVal`, used for fuel bounds and termination. -/
def psize : PyVal → Nat
  | PyVal.int _ => 1
  | PyVal.str _ => 1
  | PyVal.none => 1
  | PyVal.list vs => 1 + psizeL vs
  | PyVal.dict es => 1 + psizeE es

/-- Size measure on lists of values. -/
def psizeL : List PyVal → Nat
  | [] => 0
  | v :: vs => psize v + psizeL vs

/-- Size measure on dict entry lists. -/
def psizeE : List (String × PyVal) → Nat
  | [] => 0
  | e :: es => psize e.2 + psizeE es

end

theorem psize_pos : ∀ v : PyVal, 1 ≤ psize v := by
  intro v
  cases v <;> simp [psize]

/-- Lexicographic comparison of char lists by code point, a total order
used only to fix a canonical ordering of dict keys. -/
def charListLe : List Char → List Char → Bool
  | [], _ => true
  | _ :: _, [] => false
  | c :: cs, d :: ds =>
      if c.toNat < d.toNat then true
      else if d.toNat < c.toNat then false
      else charListLe cs ds

/-- Total order on strings used to canonicalize dict key order. -/
def strLeb (a b : String) : Bool := charListLe a.data b.data

/-- Insert an entry into a key-sorted entry list (insertion sort step),
used only to canonicalize dicts for the model of Python `==`. -/
def insEntry (e : String × PyVal) : List (String × PyVal) → List (String × PyVal)
  | [] => [e]
  | f :: fs => if strLeb e.1 f.1 then e :: f :: fs else f :: insEntry e fs

/-- Sort a dict's entries by key (insertion sort); Python dict equality
ignores insertion order, so the canonical form orders entries by key. -/
def sortEntries : List (String × PyVal) → List (String × PyVal)
  | [] => []
  | e :: es => insEntry e (sortEntries es)

mutual

/-- Canonical form of a value: dict entries are recursively sorted by
key.  On well-formed values (dicts with distinct keys) two values are
Python-`==` equal iff their canonical forms are syntactically equal. -/
def canon : PyVal → PyVal
  | PyVal.int i => PyVal.int i
  | PyVal.str t => PyVal.str t
  | PyVal.none => PyVal.none
  | PyVal.list vs => PyVal.list (canonL vs)
  | PyVal.dict es => PyVal.dict (sortEntries (canonE es))

/-- Canonical form, mapped over a list of values. -/
def canonL : List PyVal → List PyVal
  | [] => []
  | v :: vs => canon v :: canonL vs

/-- Canonical form, mapped over the values of a dict entry list. -/
def canonE : List (String × PyVal) → List (String × PyVal)
  | [] => []
  | e :: es => (e.1, canon e.2) :: canonE es

end

/-- Model of Python structural equality `==` on the values handled by
the merge engine: syntactic equality of canonical forms (element-wise on
lists, key-set-and-value-wise on dicts). -/
def pyEq (a b : PyVal) : Bool := pyBeq (canon a) (canon b)

/-- Model of Python `x in lst` membership (equality-based). -/
def pyMem (x : PyVal) (l : List PyVal) : Bool := l.any (fun e => pyEq x e)

/-- Model of Python dict lookup `d[k]` / `k in d`: the value of the
first entry with the given key, if any. -/
def lookupEntry (es : List (String × PyVal)) (k : String) : Option PyVal :=
  (es.find? (fun e => e.1 == k)).map (fun e => e.2)

/-- Model of Python dict assignment `d[k] = v`: replace the value of an
existing entry in place (keeping its position), else append a new entry
at the end, as CPython's insertion-ordered dicts do. -/
def setEntry : List (String × PyVal) → String → PyVal → List (String × PyVal)
  | [], k, v => [(k, v)]
  | f :: fs, k, v => if f.1 == k then (k, v) :: fs else f :: setEntry fs k v

mutual

/-- Functional embedding of `object_merge(old, new, unique=False)` from
`dynaconf/utils/__init__.py`; the result is the value of `new` after the
in-place merge (the Python function mutates `new` and returns `None`).
Source:

    def object_merge(old, new, unique=False):
        if isinstance(old, list) and isinstance(new, list):
            if old == new:
                return
            for item in old[::-1]:
                if unique and item in new:
                    continue
                new.insert(0, item)
        if isinstance(old, dict) and isinstance(new, dict):
            for key, value in old.items():
                if key not in new:
                    new[key] = value
                else:
                    object_merge(value, new[key])
-/
def object_merge (old new : PyVal) (unique : Bool) : PyVal :=
  match old, new with
  | PyVal.list o, PyVal.list n =>
      if pyEq (PyVal.list o) (PyVal.list n) then PyVal.list n
      else
        PyVal.list
          (o.reverse.foldl
            (fun acc item => if unique && pyMem item acc then acc else item :: acc) n)
  | PyVal.dict o, PyVal.dict n => PyVal.dict (mergeEntries o n)
  | _, _ => new

/-- The `for key, value in old.items()` loop of `object_merge`'s dict
branch, acting on the entry list of `new`; the recursive call passes
`unique=False` (Python's default), as in the source. -/
def mergeEntries (o n : List (String × PyVal)) : List (String × PyVal) :=
  match o with
  | [] => n
  | (k, v) :: rest =>
      match lookupEntry n k with
      | Option.none => mergeEntries rest (setEntry n k v)
      | Option.some w => mergeEntries rest (setEntry n k (object_merge v w false))

end

/-- Functional embedding of `deduplicate(list_object)` from
`dynaconf/utils/__init__.py`; the input list is not modified (the
function builds and returns a fresh list).  Source:

    def deduplicate(list_object):
        new = []
        for item in list_object:
            if item not in new:
                new.append(item)
        return new
-/
def deduplicate (list_object : List PyVal) : List PyVal :=
  list_object.foldl (fun new item => if pyMem item new then new else new ++ [item]) []

/-- Model of an instance of the Python `Missing` sentinel class.  The
class has no attributes; the `ident` field models object identity, so
that independently constructed instances are distinct objects. -/
structure Missing where
  ident : Nat
deriving DecidableEq

/-- Model of an arbitrary Python object as seen by `Missing.__eq__`:
either an instance of the sentinel class `Missing`, or `None`, or some
other (merge-model) value. -/
inductive PyAny where
  | missingObj : Missing → PyAny
  | noneObj : PyAny
  | valObj : PyVal → PyAny
deriving DecidableEq

/-- Model of `Missing.__bool__`: always `False`. -/
def Missing.toBool (_ : Missing) : Bool := false

/-- Model of `Missing.__eq__`: `isinstance(other, self.__class__)`,
i.e. true iff the other object is an instance of the sentinel class,
regardless of identity. -/
def Missing.pyEqAny (_ : Missing) : PyAny → Bool
  | PyAny.missingObj _ => true
  | _ => false

/-- Whether a Python object is an instance of the sentinel class. -/
def PyAny.isMissing : PyAny → Bool
  | PyAny.missingObj _ => true
  | _ => false

/-- The module-level singleton `missing = Missing()`. -/
def missing : Missing := ⟨0⟩

/-- Whether a value is a Python list (`isinstance(x, list)`). -/
def isPyList : PyVal → Bool
  | PyVal.list _ => true
  | _ => false

/-- Whether a value is a Python dict (`isinstance(x, dict)`). -/
def isPyDict : PyVal → Bool
  | PyVal.dict _ => true
  | _ => false

/-- Whether two values are containers of the same kind (both lists or
both dicts); `object_merge` only acts when this holds. -/
def sameContainerType (a b : PyVal) : Bool :=
  (isPyList a && isPyList b) || (isPyDict a && isPyDict b)

/-- The element list of a list value (and `[]` on non-lists). -/
def pyListOf : PyVal → List PyVal
  | PyVal.list l => l
  | _ => []

/-- The entry list of a dict value (and `[]` on non-dicts). -/
def pyEntriesOf : PyVal → List (String × PyVal)
  | PyVal.dict es => es
  | _ => []

/-- Modelled from the spec's output characterization of `deduplicate`:
the distinct elements of the input in order of first occurrence, i.e.
each element is kept and all its later Python-`==` duplicates dropped. -/
def distinctFirstOccurrences : List PyVal → List PyVal
  | [] => []
  | x :: xs => x :: distinctFirstOccurrences (xs.filter (fun y => !(pyEq y x)))
termination_by l => l.length
decreasing_by
  simp only [List.length_cons]
  exact Nat.lt_succ_of_le (List.length_filter_le _ _)

/-!
Store-based embedding.  To reason about in-place mutation and aliasing
(the frame contract of `object_merge`), values are also represented as
object graphs in an explicit store: every Python object is a numbered
heap cell holding either a scalar or the addresses of its children.
`mergeS` re-expresses `object_merge` as a store transformer operating on
the addresses of `old` and `new`; like the Python function it returns no
value besides its effect on the store (modelled as the updated store).
Recursion is fuel-bounded because a store, unlike a `PyVal`, can contain
sharing or cycles; on well-formed acyclic inputs enough fuel always
exists (see the frame theorem).
-/

/-- Heap address of a Python object. -/
abbrev Addr := Nat

/-- Heap cell: a scalar, or a container holding child addresses. -/
inductive Node where
  | intN : Int → Node
  | strN : String → Node
  | noneN : Node
  | listN : List Addr → Node
  | dictN : List (String × Addr) → Node
deriving DecidableEq

/-- A store maps addresses to cells (association list). -/
abbrev Store := List (Addr × Node)

/-- Cell at an address, if allocated. -/
def Store.get (s : Store) (a : Addr) : Option Node :=
  (s.find? (fun p => p.1 == a)).map (fun p => p.2)

/-- Overwrite the cell at an (allocated) address, in place (first
binding wins, matching `Store.get`). -/
def Store.set : Store → Addr → Node → Store
  | [], _, _ => []
  | p :: ps, a, n => if p.1 == a then (p.1, n) :: ps else p :: Store.set ps a n

/-- Read the values of a list of addresses with the given reader. -/
def readListAux (r : Addr → Option PyVal) : List Addr → Option (List PyVal)
  | [] => Option.some []
  | b :: bs =>
      match r b, readListAux r bs with
      | Option.some v, Option.some vs => Option.some (v :: vs)
      | _, _ => Option.none

/-- Read the values of a dict entry list with the given reader. -/
def readEntriesAux (r : Addr → Option PyVal) :
    List (String × Addr) → Option (List (String × PyVal))
  | [] => Option.some []
  | (k, b) :: es =>
      match r b, readEntriesAux r es with
      | Option.some v, Option.some vs => Option.some ((k, v) :: vs)
      | _, _ => Option.none

/-- Read the pure value rooted at an address (fuel-bounded; returns
`Option.none` on dangling addresses or insufficient fuel). -/
def readVal : Nat → Store → Addr → Option PyVal
  | 0, _, _ => Option.none
  | fuel + 1, s, a =>
      match s.get a with
      | Option.some (Node.intN i) => Option.some (PyVal.int i)
      | Option.some (Node.strN t) => Option.some (PyVal.str t)
      | Option.some Node.noneN => Option.some PyVal.none
      | Option.some (Node.listN bs) =>
          (readListAux (fun b => readVal fuel s b) bs).map PyVal.list
      | Option.some (Node.dictN es) =>
          (readEntriesAux (fun b => readVal fuel s b) es).map PyVal.dict
      | Option.none => Option.none

/-- The `for item in old[::-1]` loop of `mergeS`'s list branch: walk the
(already reversed) element addresses, prepending each to the accumulated
element list of `new`, skipping, when `unique`, items whose value is
`==`-present among the accumulated elements' values; `r` reads a value
from the (unchanged during the loop) store. -/
def listLoopAux (r : Addr → Option PyVal) (unique : Bool) :
    List Addr → List Addr → Option (List Addr)
  | [], acc => Option.some acc
  | ia :: items, acc =>
      if unique then
        match r ia, readListAux r acc with
        | Option.some vi, Option.some ws =>
            if ws.any (fun w => pyEq vi w) then listLoopAux r unique items acc
            else listLoopAux r unique items (ia :: acc)
        | _, _ => Option.none
      else listLoopAux r unique items (ia :: acc)

/-- The `for key, value in old.items()` loop of `mergeS`'s dict branch:
`mg` performs the recursive merge (with `unique=False`); `new`'s cell at
`an` is reread on every iteration, as the Python loop does; absent keys
are attached by reference (the child address of `old` is installed). -/
def dictLoopAux (mg : Store → Addr → Addr → Option Store) (an : Addr) :
    List (String × Addr) → Store → Option Store
  | [], s => Option.some s
  | kv :: rest, s =>
      match s.get an with
      | Option.some (Node.dictN en) =>
          match en.find? (fun e => e.1 == kv.1) with
          | Option.none => dictLoopAux mg an rest (s.set an (Node.dictN (en ++ [kv])))
          | Option.some (_, wb) => (mg s kv.2 wb).bind (fun s' => dictLoopAux mg an rest s')
      | _ => Option.none

/-- Store-level embedding of `object_merge(old, new, unique)`: `ao` and
`an` are the addresses of `old` and `new`.  Mirrors the source line by
line: the list branch compares `old == new` (a deep read), then walks
`old[::-1]` prepending element addresses (by reference) to `new`'s cell,
skipping, when `unique`, items `==`-present in the current `new`; the
dict branch walks `old`'s entries, attaching absent keys by reference
and recursing (with `unique=False`) on shared keys.  Like the Python
function it produces no value besides its effect on the store; the
result is the updated store, or `Option.none` when out of fuel (or
reading a dangling address). -/
def mergeS : Nat → Store → Addr → Addr → Bool → Option Store
  | 0, _, _, _, _ => Option.none
  | fuel + 1, s, ao, an, unique =>
      match s.get ao, s.get an with
      | Option.some (Node.listN lo), Option.some (Node.listN ln) =>
          match readVal fuel s ao, readVal fuel s an with
          | Option.some vo, Option.some vn =>
              if pyEq vo vn then Option.some s
              else
                (listLoopAux (fun b => readVal fuel s b) unique lo.reverse ln).map
                  (fun ln' => s.set an (Node.listN ln'))
          | _, _ => Option.none
      | Option.some (Node.dictN eo), Option.some (Node.dictN _) =>
          dictLoopAux (fun s1 va wb => mergeS fuel s1 va wb false) an eo s
      | _, _ => Option.some s

/-- Addresses reachable from an address (fuel-bounded closure), used to
state that two object graphs share no sub-structure. -/
def reachIn : Nat → Store → Addr → List Addr
  | 0, _, a => [a]
  | fuel + 1, s, a =>
      a ::
        (match s.get a with
        | Option.some (Node.listN bs) => bs.flatMap (fun b => reachIn fuel s b)
        | Option.some (Node.dictN es) => es.flatMap (fun e => reachIn fuel s e.2)
        | _ => [])

mutual

/-- Separation-logic style representation predicate: address `a` in
store `s` represents the pure value `v`, with exact footprint `F` (the
addresses of the object graph), and the graph is a tree: distinct
children occupy disjoint footprints and no cell is shared.  A freshly
built (non-aliased) Python structure is represented this way. -/
def ReprV (s : Store) (a : Addr) : PyVal → List Addr → Prop
  | PyVal.int i, F => s.get a = Option.some (Node.intN i) ∧ F = [a]
  | PyVal.str t, F => s.get a = Option.some (Node.strN t) ∧ F = [a]
  | PyVal.none, F => s.get a = Option.some Node.noneN ∧ F = [a]
  | PyVal.list vs, F =>
      ∃ bs Fc, s.get a = Option.some (Node.listN bs) ∧ ReprL s bs vs Fc ∧
        a ∉ Fc ∧ F = a :: Fc
  | PyVal.dict kvs, F =>
      ∃ es Fc, s.get a = Option.some (Node.dictN es) ∧ ReprE s es kvs Fc ∧
        a ∉ Fc ∧ F = a :: Fc

/-- Representation of a list of addresses by a list of values with
pairwise disjoint footprints. -/
def ReprL (s : Store) : List Addr → List PyVal → List Addr → Prop
  | bs, [], F => bs = [] ∧ F = []
  | bs, v :: vrest, F =>
      ∃ b brest Fb Frest, bs = b :: brest ∧ ReprV s b v Fb ∧ ReprL s brest vrest Frest ∧
        (∀ x ∈ Fb, x ∉ Frest) ∧ F = Fb ++ Frest

/-- Representation of a dict entry list by keyed values with pairwise
disjoint footprints. -/
def ReprE (s : Store) : List (String × Addr) → List (String × PyVal) → List Addr → Prop
  | es, [], F => es = [] ∧ F = []
  | es, (k, v) :: vrest, F =>
      ∃ b erest Fb Frest, es = (k, b) :: erest ∧ ReprV s b v Fb ∧ ReprE s erest vrest Frest ∧
        (∀ x ∈ Fb, x ∉ Frest) ∧ F = Fb ++ Frest

end

/-- Store for the aliasing scenario `old = {"a": {"x": {"p": 1}}, "b":
{"x": {"q": 2}}}` (rooted at address 7) and `new = {"a": M, "b": M}`
with `M = {}` a single dict object referenced twice (rooted at address
9).  The two object graphs share no address, but `new` aliases cell 8
internally. -/
def cexStore : Store :=
  [(1, Node.dictN [("p", 2)]), (2, Node.intN 1), (3, Node.dictN [("q", 4)]),
   (4, Node.intN 2), (5, Node.dictN [("x", 1)]), (6, Node.dictN [("x", 3)]),
   (7, Node.dictN [("a", 5), ("b", 6)]), (8, Node.dictN []),
   (9, Node.dictN [("a", 8), ("b", 8)])]

/-- Whether a list of strings has pairwise distinct members. -/
def listNodupB : List String → Bool
  | [] => true
  | k :: ks => !(ks.contains k) && listNodupB ks

mutual

/-- Well-formedness of a value as a Python object: every dict in it has
pairwise distinct keys (always true of values read from real Python
dicts). -/
def wfKeys : PyVal → Bool
  | PyVal.int _ => true
  | PyVal.str _ => true
  | PyVal.none => true
  | PyVal.list vs => wfKeysL vs
  | PyVal.dict es => listNodupB (es.map Prod.fst) && wfKeysE es

/-- Well-formedness of every value in a list. -/
def wfKeysL : List PyVal → Bool
  | [] => true
  | v :: vs => wfKeys v && wfKeysL vs

/-- Well-formedness of every value of a dict entry list. -/
def wfKeysE : List (String × PyVal) → Bool
  | [] => true
  | e :: es => wfKeys e.2 && wfKeysE es

end

/-!
Helper lemmas about the model of Python equality.
-/

theorem pyEq_iff_canon (a b : PyVal) : pyEq a b = true ↔ canon a = canon b := by
  simp [pyEq, pyBeq_iff]

theorem pyEq_refl (a : PyVal) : pyEq a a = true := by
  simp [pyEq_iff_canon]

theorem pyEq_false_of_canon_ne (a b : PyVal) (h : canon a ≠ canon b) : pyEq a b = false := by
  cases he : pyEq a b with
  | false => rfl
  | true => exact absurd ((pyEq_iff_canon a b).mp he) h

theorem pyEq_comm (a b : PyVal) : pyEq a b = pyEq b a := by
  by_cases h : canon a = canon b
  · rw [(pyEq_iff_canon a b).mpr h, (pyEq_iff_canon b a).mpr h.symm]
  · rw [pyEq_false_of_canon_ne a b h, pyEq_false_of_canon_ne b a (fun e => h e.symm)]

theorem pyEq_congr_left (a b c : PyVal) (h : pyEq a b = true) : pyEq a c = pyEq b c := by
  unfold pyEq
  rw [(pyEq_iff_canon a b).mp h]

theorem pyEq_list_iff (L M : List PyVal) :
    pyEq (PyVal.list L) (PyVal.list M) = true ↔ canonL L = canonL M := by
  simp [pyEq_iff_canon, canon]

theorem canonL_eq_of_forall₂ (L M : List PyVal)
    (h : List.Forall₂ (fun a b => pyEq a b = true) L M) : canonL L = canonL M := by
  induction h with
  | nil => rfl
  | cons hab _ ih => simp [canonL, (pyEq_iff_canon _ _).mp hab, ih]

theorem pyMem_append (e : PyVal) (l₁ l₂ : List PyVal) :
    pyMem e (l₁ ++ l₂) = (pyMem e l₁ || pyMem e l₂) := by
  simp [pyMem]

theorem pyMem_of_pyEq_mem (e x : PyVal) (l : List PyVal) (hx : x ∈ l)
    (he : pyEq e x = true) : pyMem e l = true := by
  simp only [pyMem, List.any_eq_true]
  exact ⟨x, hx, he⟩

/-!
List branch of `object_merge`: with `unique=False` the reverse walk with
`insert(0, ...)` prepends all of `old` in order.
-/

theorem mergeList_concat (A B : List PyVal) :
    A.reverse.foldl (fun acc item => item :: acc) B = A ++ B := by
  induction A generalizing B with
  | nil => rfl
  | cons a A ih =>
      simp only [List.reverse_cons, List.foldl_append, List.foldl_cons, List.foldl_nil]
      rw [ih]
      rfl

/-- C1 (amended): for lists `A`, `B` that are not Python-`==` equal
(the idempotence short-circuit does not fire), `object_merge(A, B,
unique=False)` turns `B` into `A ++ B`: final length `len(A) +
len(B_original)`, trailing sub-sequence exactly `B_original`, and the
prepended block is `A` in its original relative order.  (As stated for
all pairs the claim fails: when `A == B` the merge is a no-op, see the
counterexample.) -/
theorem object_merge_list_concat (A B : List PyVal)
    (h : pyEq (PyVal.list A) (PyVal.list B) = false) :
    object_merge (PyVal.list A) (PyVal.list B) false = PyVal.list (A ++ B)
      ∧ (pyListOf (object_merge (PyVal.list A) (PyVal.list B) false)).length
          = A.length + B.length := by
  have h1 : object_merge (PyVal.list A) (PyVal.list B) false = PyVal.list (A ++ B) := by
    simp only [object_merge, h, Bool.false_and, Bool.false_eq_true, if_false]
    rw [mergeList_concat]
  refine ⟨h1, ?_⟩
  rw [h1]
  simp [pyListOf]

/-- Witness for C1's theorem at `A = [1]`, `B = [2]`. -/
theorem object_merge_list_concat_witness :
    object_merge (PyVal.list [PyVal.int 1]) (PyVal.list [PyVal.int 2]) false
      = PyVal.list ([PyVal.int 1] ++ [PyVal.int 2]) :=
  (object_merge_list_concat [PyVal.int 1] [PyVal.int 2] (by decide)).1

/-- C1 counterexample: at `A = B = [1]` (with `unique=False`) the
idempotence short-circuit fires, so `B`'s final length is `1`, not
`len(A) + len(B_original) = 2` as the claim states for every pair. -/
theorem object_merge_list_concat_cex :
    (pyListOf (object_merge (PyVal.list [PyVal.int 1]) (PyVal.list [PyVal.int 1]) false)).length
      ≠ [PyVal.int 1].length + [PyVal.int 1].length := by decide

/-- C5: when `old` and `new` are Python-`==` equal lists (element-wise
equal sequences), `object_merge` leaves `new` unchanged regardless of
the `unique` flag (idempotence short-circuit). -/
theorem object_merge_equal_lists_noop (L M : List PyVal) (u : Bool)
    (h : List.Forall₂ (fun a b => pyEq a b = true) L M) :
    object_merge (PyVal.list L) (PyVal.list M) u = PyVal.list M := by
  have he : pyEq (PyVal.list L) (PyVal.list M) = true :=
    (pyEq_list_iff L M).mpr (canonL_eq_of_forall₂ L M h)
  simp [object_merge, he]

/-- Witness for C5's theorem at `L = M = [5]` with `unique=True`. -/
theorem object_merge_equal_lists_noop_witness :
    object_merge (PyVal.list [PyVal.int 5]) (PyVal.list [PyVal.int 5]) true
      = PyVal.list [PyVal.int 5] :=
  object_merge_equal_lists_noop [PyVal.int 5] [PyVal.int 5] true
    (List.Forall₂.cons (pyEq_refl (PyVal.int 5)) List.Forall₂.nil)


/-!
Dict branch of `object_merge`: lookup/assignment lemmas and the
behaviour of the entry-merging loop.
-/

theorem lookupEntry_cons (f : String × PyVal) (fs : List (String × PyVal)) (k : String) :
    lookupEntry (f :: fs) k = if f.1 == k then Option.some f.2 else lookupEntry fs k := by
  by_cases h : (f.1 == k) = true
  · simp [lookupEntry, List.find?_cons_of_pos _ h, h]
  · have h' : (f.1 == k) = false := by simpa using h
    simp [lookupEntry, List.find?_cons_of_neg, h']

theorem lookupEntry_eq_none_iff (n : List (String × PyVal)) (k : String) :
    lookupEntry n k = Option.none ↔ k ∉ n.map Prod.fst := by
  induction n with
  | nil => simp [lookupEntry]
  | cons f fs ih =>
      rw [lookupEntry_cons]
      by_cases h : (f.1 == k) = true
      · simp only [beq_iff_eq] at h
        simp [h]
      · have h' : (f.1 == k) = false := by simpa using h
        simp only [beq_iff_eq] at h
        have hne : k ≠ f.1 := fun e => h e.symm
        simp [h', ih, hne]

theorem lookupEntry_setEntry_self (n : List (String × PyVal)) (k : String) (v : PyVal) :
    lookupEntry (setEntry n k v) k = Option.some v := by
  induction n with
  | nil => simp [setEntry, lookupEntry]
  | cons f fs ih =>
      by_cases h : (f.1 == k) = true
      · simp [setEntry, h, lookupEntry_cons]
      · have h' : (f.1 == k) = false := by simpa using h
        simp [setEntry, h', lookupEntry_cons, ih]

theorem lookupEntry_setEntry_ne (n : List (String × PyVal)) (k k' : String) (v : PyVal)
    (hne : k' ≠ k) : lookupEntry (setEntry n k v) k' = lookupEntry n k' := by
  have hkk : (k == k') = false := beq_eq_false_iff_ne.mpr (fun e => hne e.symm)
  induction n with
  | nil => simp [setEntry, lookupEntry_cons, lookupEntry, hkk]
  | cons f fs ih =>
      by_cases h : (f.1 == k) = true
      · have hfk : f.1 = k := beq_iff_eq.mp h
        have hf : (f.1 == k') = false :=
          beq_eq_false_iff_ne.mpr (fun e => hne ((hfk.symm.trans e).symm))
        simp [setEntry, h, lookupEntry_cons, hkk, hf]
      · have h' : (f.1 == k) = false := by simpa using h
        simp [setEntry, h', lookupEntry_cons, ih]

theorem mem_keys_setEntry (n : List (String × PyVal)) (k k' : String) (v : PyVal) :
    k' ∈ (setEntry n k v).map Prod.fst ↔ k' = k ∨ k' ∈ n.map Prod.fst := by
  induction n with
  | nil => simp [setEntry]
  | cons f fs ih =>
      by_cases h : (f.1 == k) = true
      · simp only [beq_iff_eq] at h
        simp [setEntry, h, beq_self_eq_true]
      · have h' : (f.1 == k) = false := by simpa using h
        simp [setEntry, h', ih]
        tauto

theorem setEntry_of_not_mem (n : List (String × PyVal)) (k : String) (v : PyVal)
    (h : k ∉ n.map Prod.fst) : setEntry n k v = n ++ [(k, v)] := by
  induction n with
  | nil => simp [setEntry]
  | cons f fs ih =>
      simp only [List.map_cons, List.mem_cons] at h
      push_neg at h
      have h' : (f.1 == k) = false := by simpa using fun e => h.1 e.symm
      simp [setEntry, h', ih h.2]

theorem mergeEntries_keys_mono (o : List (String × PyVal)) :
    ∀ (n : List (String × PyVal)) (k : String),
      k ∈ n.map Prod.fst → k ∈ (mergeEntries o n).map Prod.fst := by
  induction o with
  | nil => intro n k h; simpa [mergeEntries] using h
  | cons f rest ih =>
      intro n k h
      obtain ⟨k₁, v₁⟩ := f
      rw [mergeEntries]
      cases hl : lookupEntry n k₁ with
      | none =>
          exact ih _ k ((mem_keys_setEntry n k₁ k v₁).mpr (Or.inr h))
      | some w =>
          exact ih _ k ((mem_keys_setEntry n k₁ k _).mpr (Or.inr h))

theorem mergeEntries_keys_old (o : List (String × PyVal)) :
    ∀ (n : List (String × PyVal)) (k : String),
      k ∈ o.map Prod.fst → k ∈ (mergeEntries o n).map Prod.fst := by
  induction o with
  | nil => intro n k h; simp at h
  | cons f rest ih =>
      intro n k h
      obtain ⟨k₁, v₁⟩ := f
      simp only [List.map_cons, List.mem_cons] at h
      rw [mergeEntries]
      rcases h with h | h
      · cases hl : lookupEntry n k₁ with
        | none =>
            exact mergeEntries_keys_mono rest _ k
              ((mem_keys_setEntry n k₁ k v₁).mpr (Or.inl h))
        | some w =>
            exact mergeEntries_keys_mono rest _ k
              ((mem_keys_setEntry n k₁ k _).mpr (Or.inl h))
      · cases hl : lookupEntry n k₁ with
        | none => exact ih _ k h
        | some w => exact ih _ k h

theorem mergeEntries_disjoint (o : List (String × PyVal)) :
    ∀ (n : List (String × PyVal)),
      (o.map Prod.fst).Nodup →
      (∀ k ∈ o.map Prod.fst, k ∉ n.map Prod.fst) →
      mergeEntries o n = n ++ o := by
  induction o with
  | nil => intro n _ _; simp [mergeEntries]
  | cons f rest ih =>
      intro n hnd hdisj
      obtain ⟨k₁, v₁⟩ := f
      simp only [List.map_cons, List.nodup_cons] at hnd
      have hk₁ : k₁ ∉ n.map Prod.fst := hdisj k₁ (by simp)
      have hl : lookupEntry n k₁ = Option.none := (lookupEntry_eq_none_iff n k₁).mpr hk₁
      rw [mergeEntries, hl, setEntry_of_not_mem n k₁ v₁ hk₁]
      rw [ih (n ++ [(k₁, v₁)]) hnd.2 ?_]
      · simp
      · intro k hk
        simp only [List.map_append, List.mem_append] at *
        push_neg
        refine ⟨hdisj k (by simp [hk]), ?_⟩
        simp only [List.map_cons, List.map_nil, List.mem_singleton]
        exact fun e => hnd.1 (e ▸ hk)

theorem mergeEntries_lookup_not_mem (o : List (String × PyVal)) :
    ∀ (n : List (String × PyVal)) (k : String),
      k ∉ o.map Prod.fst →
      lookupEntry (mergeEntries o n) k = lookupEntry n k := by
  induction o with
  | nil => intro n k _; simp [mergeEntries]
  | cons f rest ih =>
      intro n k h
      obtain ⟨k₁, v₁⟩ := f
      simp only [List.map_cons, List.mem_cons] at h
      push_neg at h
      rw [mergeEntries]
      cases hl : lookupEntry n k₁ with
      | none => rw [ih _ k h.2, lookupEntry_setEntry_ne n k₁ k v₁ h.1]
      | some w => rw [ih _ k h.2, lookupEntry_setEntry_ne n k₁ k _ h.1]

theorem mergeEntries_lookup_shared (o : List (String × PyVal)) :
    ∀ (n : List (String × PyVal)) (k : String) (vo vn : PyVal),
      (o.map Prod.fst).Nodup →
      lookupEntry o k = Option.some vo →
      lookupEntry n k = Option.some vn →
      lookupEntry (mergeEntries o n) k = Option.some (object_merge vo vn false) := by
  induction o with
  | nil => intro n k vo vn _ ho _; simp [lookupEntry] at ho
  | cons f rest ih =>
      intro n k vo vn hnd ho hn
      obtain ⟨k₁, v₁⟩ := f
      simp only [List.map_cons, List.nodup_cons] at hnd
      rw [lookupEntry_cons] at ho
      by_cases hb : (k₁ == k) = true
      · simp only [hb, if_true, Option.some.injEq] at ho
        simp only [beq_iff_eq] at hb
        subst hb
        subst ho
        rw [mergeEntries, hn]
        rw [mergeEntries_lookup_not_mem rest _ k₁ hnd.1]
        exact lookupEntry_setEntry_self n k₁ _
      · have hb' : (k₁ == k) = false := by simpa using hb
        simp only [hb', Bool.false_eq_true, if_false] at ho
        rw [mergeEntries]
        cases hl : lookupEntry n k₁ with
        | none =>
            refine ih _ k vo vn hnd.2 ho ?_
            rw [lookupEntry_setEntry_ne n k₁ k v₁ ?_, hn]
            simp only [beq_iff_eq] at hb
            exact fun e => hb e.symm
        | some w =>
            refine ih _ k vo vn hnd.2 ho ?_
            rw [lookupEntry_setEntry_ne n k₁ k _ ?_, hn]
            simp only [beq_iff_eq] at hb
            exact fun e => hb e.symm

/-- C2: for mappings, after `object_merge(old, new)` every key of `old`
is present in the (mutated) `new`; and when `old` and `new` (with
`old`'s keys distinct, as in a Python dict) share no keys, the result is
the union of both mappings with all original key-value pairs intact
(`new`'s entries first, then `old`'s, in order). -/
theorem object_merge_dict_keys_union :
    (∀ (o n : List (String × PyVal)) (u : Bool) (k : String),
        k ∈ o.map Prod.fst →
        k ∈ (pyEntriesOf (object_merge (PyVal.dict o) (PyVal.dict n) u)).map Prod.fst)
    ∧ (∀ (o n : List (String × PyVal)) (u : Bool),
        (o.map Prod.fst).Nodup →
        (∀ k ∈ o.map Prod.fst, k ∉ n.map Prod.fst) →
        object_merge (PyVal.dict o) (PyVal.dict n) u = PyVal.dict (n ++ o)) := by
  constructor
  · intro o n u k hk
    simpa [object_merge, pyEntriesOf] using mergeEntries_keys_old o n k hk
  · intro o n u hnd hdisj
    simp [object_merge, mergeEntries_disjoint o n hnd hdisj]

/-- Witness for C2's theorem at `old = {"a": 1}`, `new = {"b": 2}`. -/
theorem object_merge_dict_keys_union_witness :
    "a" ∈ (pyEntriesOf (object_merge (PyVal.dict [("a", PyVal.int 1)])
        (PyVal.dict [("b", PyVal.int 2)]) false)).map Prod.fst
    ∧ object_merge (PyVal.dict [("a", PyVal.int 1)]) (PyVal.dict [("b", PyVal.int 2)]) false
        = PyVal.dict ([("b", PyVal.int 2)] ++ [("a", PyVal.int 1)]) :=
  ⟨object_merge_dict_keys_union.1 [("a", PyVal.int 1)] [("b", PyVal.int 2)] false "a" (by decide),
   object_merge_dict_keys_union.2 [("a", PyVal.int 1)] [("b", PyVal.int 2)] false (by decide)
     (by decide)⟩

/-- C3: end-to-end scenario from the spec: with `old = {"a": [1,2],
"b": {"x": 1}}` and `new = {"a": [3], "b": {"y": 2}}`, after
`object_merge(old, new)` the mutated `new` is Python-`==` equal to
`{"a": [1,2,3], "b": {"x": 1, "y": 2}}` (list elements of `old`
prepended in order, nested mapping deep-merged). -/
theorem object_merge_end_to_end :
    pyEq
      (object_merge
        (PyVal.dict [("a", PyVal.list [PyVal.int 1, PyVal.int 2]),
                     ("b", PyVal.dict [("x", PyVal.int 1)])])
        (PyVal.dict [("a", PyVal.list [PyVal.int 3]),
                     ("b", PyVal.dict [("y", PyVal.int 2)])])
        false)
      (PyVal.dict [("a", PyVal.list [PyVal.int 1, PyVal.int 2, PyVal.int 3]),
                   ("b", PyVal.dict [("x", PyVal.int 1), ("y", PyVal.int 2)])]) = true := by
  decide

/-- C6: when `old` and `new` are not both lists and not both dicts
(scalar/scalar, list/dict, dict/list, scalar/container, ...),
`object_merge` leaves `new` completely untouched and discards `old`;
likewise, in the recursive mapping case a shared key whose `old` and
`new` values have mismatched container types keeps `new`'s value
unchanged. -/
theorem object_merge_type_mismatch_noop :
    (∀ (o n : PyVal) (u : Bool), sameContainerType o n = false → object_merge o n u = n)
    ∧ (∀ (o n : List (String × PyVal)) (u : Bool) (k : String) (vo vn : PyVal),
        (o.map Prod.fst).Nodup →
        lookupEntry o k = Option.some vo →
        lookupEntry n k = Option.some vn →
        sameContainerType vo vn = false →
        lookupEntry (pyEntriesOf (object_merge (PyVal.dict o) (PyVal.dict n) u)) k
          = Option.some vn) := by
  have part1 : ∀ (o n : PyVal) (u : Bool),
      sameContainerType o n = false → object_merge o n u = n := by
    intro o n u h
    cases o <;> cases n <;> simp_all [sameContainerType, isPyList, isPyDict, object_merge]
  refine ⟨part1, ?_⟩
  intro o n u k vo vn hnd ho hn hmis
  have h := mergeEntries_lookup_shared o n k vo vn hnd ho hn
  rw [part1 vo vn false hmis] at h
  simpa [object_merge, pyEntriesOf] using h

/-- Witness for C6's theorem: scalar/scalar at top level, and a shared
key with a list in `old` and a dict in `new`. -/
theorem object_merge_type_mismatch_noop_witness :
    object_merge (PyVal.int 1) (PyVal.str "x") true = PyVal.str "x"
    ∧ lookupEntry (pyEntriesOf (object_merge (PyVal.dict [("a", PyVal.list [PyVal.int 1])])
        (PyVal.dict [("a", PyVal.dict [])]) false)) "a" = Option.some (PyVal.dict []) :=
  ⟨object_merge_type_mismatch_noop.1 (PyVal.int 1) (PyVal.str "x") true (by decide),
   object_merge_type_mismatch_noop.2 [("a", PyVal.list [PyVal.int 1])] [("a", PyVal.dict [])]
     false "a" (PyVal.list [PyVal.int 1]) (PyVal.dict []) (by decide) (by decide) (by decide)
     (by decide)⟩

/-- C7: the recursive merge invoked by the mapping case always runs
with `unique=False`, even when the top-level call used `unique=True`:
the dict branch of `object_merge` is independent of the flag, and
nested lists under a shared key receive `old`'s elements prepended
without duplicate-skipping (here `lo ++ ln`, duplicates and all). -/
theorem object_merge_unique_flag_not_propagated :
    (∀ (o n : List (String × PyVal)) (u : Bool),
        object_merge (PyVal.dict o) (PyVal.dict n) u
          = object_merge (PyVal.dict o) (PyVal.dict n) false)
    ∧ (∀ (o n : List (String × PyVal)) (k : String) (lo ln : List PyVal),
        (o.map Prod.fst).Nodup →
        lookupEntry o k = Option.some (PyVal.list lo) →
        lookupEntry n k = Option.some (PyVal.list ln) →
        pyEq (PyVal.list lo) (PyVal.list ln) = false →
        lookupEntry (pyEntriesOf (object_merge (PyVal.dict o) (PyVal.dict n) true)) k
          = Option.some (PyVal.list (lo ++ ln))) := by
  constructor
  · intro o n u
    simp [object_merge]
  · intro o n k lo ln hnd ho hn hne
    have h := mergeEntries_lookup_shared o n k (PyVal.list lo) (PyVal.list ln) hnd ho hn
    have h2 : object_merge (PyVal.list lo) (PyVal.list ln) false = PyVal.list (lo ++ ln) := by
      simp only [object_merge, hne, Bool.false_and, Bool.false_eq_true, if_false]
      rw [mergeList_concat]
    rw [h2] at h
    simpa [object_merge, pyEntriesOf] using h

/-- Witness for C7's theorem: at `old = {"a": [1]}`, `new = {"a": [1,
2]}` with top-level `unique=True` the nested lists merge to `[1, 1, 2]`
(the duplicate `1` is not skipped). -/
theorem object_merge_unique_flag_not_propagated_witness :
    lookupEntry (pyEntriesOf (object_merge (PyVal.dict [("a", PyVal.list [PyVal.int 1])])
        (PyVal.dict [("a", PyVal.list [PyVal.int 1, PyVal.int 2])]) true)) "a"
      = Option.some (PyVal.list ([PyVal.int 1] ++ [PyVal.int 1, PyVal.int 2])) :=
  object_merge_unique_flag_not_propagated.2 [("a", PyVal.list [PyVal.int 1])]
    [("a", PyVal.list [PyVal.int 1, PyVal.int 2])] "a" [PyVal.int 1]
    [PyVal.int 1, PyVal.int 2] (by decide) (by decide) (by decide) (by decide)

/-!
List branch with `unique=True`: the loop never adds an item that is
`==`-present in the current `new`, so the multiplicity of anything
already in `new` is preserved (but pre-existing duplicates inside `new`
are not removed).
-/

theorem pyMem_cons (e x : PyVal) (l : List PyVal) :
    pyMem e (x :: l) = (pyEq e x || pyMem e l) := by
  simp [pyMem]

theorem uniqueFold_count (items : List PyVal) :
    ∀ (acc : List PyVal) (e : PyVal), pyMem e acc = true →
      pyMem e (items.foldl (fun acc item => if pyMem item acc then acc else item :: acc) acc)
          = true
      ∧ (items.foldl (fun acc item => if pyMem item acc then acc else item :: acc) acc).countP
            (fun x => pyEq x e)
          = acc.countP (fun x => pyEq x e) := by
  induction items with
  | nil => intro acc e h; exact ⟨h, rfl⟩
  | cons item rest ih =>
      intro acc e h
      simp only [List.foldl_cons]
      by_cases hm : pyMem item acc = true
      · simp only [hm, if_true]
        exact ih acc e h
      · have hm' : pyMem item acc = false := by simpa using hm
        simp only [hm', Bool.false_eq_true, if_false]
        have hie : pyEq item e = false := by
          cases hq : pyEq item e with
          | false => rfl
          | true =>
              obtain ⟨x, hx, hex⟩ : ∃ x ∈ acc, pyEq e x = true := by
                simpa [pyMem, List.any_eq_true] using h
              have hix : pyEq item x = true := by
                rw [pyEq_congr_left item e x hq]
                exact hex
              have : pyMem item acc = true := pyMem_of_pyEq_mem item x acc hx hix
              rw [this] at hm'
              exact absurd hm' (by simp)
        have hmem : pyMem e (item :: acc) = true := by
          rw [pyMem_cons, h, Bool.or_true]
        obtain ⟨h1, h2⟩ := ih (item :: acc) e hmem
        refine ⟨h1, ?_⟩
        rw [h2, List.countP_cons, hie]
        simp

/-- C4 (amended): with `unique=True`, `object_merge` introduces no new
duplicates of anything already in `B_original`: every element
`==`-present in `B_original` occurs in the result exactly as often as in
`B_original`; and the spec's concrete scenario holds:
`old=["a","b"]`, `new=["b","c"]` gives `["a","b","c"]`.  (As stated the
claim fails when `B_original` itself already contains duplicates, which
the merge does not remove, see the counterexample.) -/
theorem object_merge_unique_no_new_duplicates :
    (∀ (A B : List PyVal) (e : PyVal), pyMem e B = true →
        (pyListOf (object_merge (PyVal.list A) (PyVal.list B) true)).countP (fun x => pyEq x e)
          = B.countP (fun x => pyEq x e))
    ∧ object_merge (PyVal.list [PyVal.str "a", PyVal.str "b"])
        (PyVal.list [PyVal.str "b", PyVal.str "c"]) true
        = PyVal.list [PyVal.str "a", PyVal.str "b", PyVal.str "c"] := by
  constructor
  · intro A B e he
    by_cases hq : pyEq (PyVal.list A) (PyVal.list B) = true
    · simp [object_merge, hq, pyListOf]
    · have hq' : pyEq (PyVal.list A) (PyVal.list B) = false := by simpa using hq
      simp only [object_merge, hq', Bool.false_eq_true, if_false, Bool.true_and, pyListOf]
      exact (uniqueFold_count A.reverse B e he).2
  · decide

/-- Witness for C4's theorem at `A = [2]`, `B = [3]`, `e = 3`. -/
theorem object_merge_unique_no_new_duplicates_witness :
    (pyListOf (object_merge (PyVal.list [PyVal.int 2]) (PyVal.list [PyVal.int 3]) true)).countP
        (fun x => pyEq x (PyVal.int 3))
      = [PyVal.int 3].countP (fun x => pyEq x (PyVal.int 3)) :=
  object_merge_unique_no_new_duplicates.1 [PyVal.int 2] [PyVal.int 3] (PyVal.int 3) (by decide)

/-- C4 counterexample: with `old = [1]` and `new = [7, 7]` and
`unique=True`, the element `7` of `B_original` appears twice in the
result `[1, 7, 7]` — so it is false that no element present in
`B_original` is duplicated in the result. -/
theorem object_merge_unique_duplicate_cex :
    pyMem (PyVal.int 7) [PyVal.int 7, PyVal.int 7] = true
    ∧ 1 < (pyListOf (object_merge (PyVal.list [PyVal.int 1])
        (PyVal.list [PyVal.int 7, PyVal.int 7]) true)).countP
          (fun x => pyEq x (PyVal.int 7)) := by
  decide

/-- C9: the `Missing` sentinel contract: `bool(missing)` is `False`;
`missing == Missing()` is `True` — equality holds between any two
instances of the sentinel class, by class membership rather than
identity; and `missing == None` is `False` — the sentinel equals no
non-sentinel object. -/
theorem missing_sentinel_contract :
    Missing.toBool missing = false
    ∧ Missing.pyEqAny missing (PyAny.missingObj (Missing.mk 1)) = true
    ∧ (∀ m other : Missing, Missing.pyEqAny m (PyAny.missingObj other) = true)
    ∧ Missing.pyEqAny missing PyAny.noneObj = false
    ∧ (∀ (m : Missing) (x : PyAny), Missing.pyEqAny m x = PyAny.isMissing x) := by
  refine ⟨rfl, rfl, fun m o => rfl, rfl, fun m x => ?_⟩
  cases x <;> rfl

/-!
Deduplicator: the fold with append-if-absent computes exactly the
distinct elements in order of first occurrence.
-/

theorem pyMem_singleton (e x : PyVal) : pyMem e [x] = pyEq e x := by
  simp [pyMem]

theorem dedupFold_eq (l : List PyVal) :
    ∀ acc : List PyVal,
      l.foldl (fun new item => if pyMem item new then new else new ++ [item]) acc
        = acc ++ distinctFirstOccurrences (l.filter (fun y => !(pyMem y acc))) := by
  induction l with
  | nil => intro acc; simp [distinctFirstOccurrences]
  | cons item rest ih =>
      intro acc
      simp only [List.foldl_cons, List.filter_cons]
      by_cases hm : pyMem item acc = true
      · simp only [hm, if_true, Bool.not_true, Bool.false_eq_true, if_false]
        exact ih acc
      · have hm' : pyMem item acc = false := by simpa using hm
        simp only [hm', Bool.false_eq_true, if_false, Bool.not_false, if_true]
        rw [ih (acc ++ [item]), distinctFirstOccurrences, List.append_assoc]
        have hfil : rest.filter (fun y => !(pyMem y (acc ++ [item])))
            = (rest.filter (fun y => !(pyMem y acc))).filter (fun y => !(pyEq y item)) := by
          rw [List.filter_filter]
          apply List.filter_congr
          intro y _
          rw [pyMem_append, pyMem_singleton, Bool.not_or]
          exact Bool.and_comm _ _
        rw [hfil]
        rfl

theorem deduplicate_eq_distinctFirstOccurrences (l : List PyVal) :
    deduplicate l = distinctFirstOccurrences l := by
  have hfil : l.filter (fun y => !(pyMem y ([] : List PyVal))) = l := by
    apply List.filter_eq_self.mpr
    intro a _
    rfl
  have := dedupFold_eq l []
  rw [hfil] at this
  simpa [deduplicate] using this

theorem distinctFirstOccurrences_sublist (l : List PyVal) :
    (distinctFirstOccurrences l).Sublist l := by
  induction l using distinctFirstOccurrences.induct with
  | case1 => simp [distinctFirstOccurrences]
  | case2 x xs ih =>
      rw [distinctFirstOccurrences]
      exact (ih.trans (List.filter_sublist xs)).cons₂ x

theorem distinctFirstOccurrences_pairwise (l : List PyVal) :
    (distinctFirstOccurrences l).Pairwise (fun a b => pyEq a b = false) := by
  induction l using distinctFirstOccurrences.induct with
  | case1 => simp [distinctFirstOccurrences]
  | case2 x xs ih =>
      rw [distinctFirstOccurrences]
      refine List.Pairwise.cons ?_ ih
      intro b hb
      have hbmem : b ∈ xs.filter (fun y => !(pyEq y x)) :=
        (distinctFirstOccurrences_sublist _).subset hb
      have hbx : pyEq b x = false := by
        have := (List.mem_filter.mp hbmem).2
        simpa using this
      rw [pyEq_comm]
      exact hbx

theorem pyMem_filter_ne (e x : PyVal) (xs : List PyVal) (h : pyEq e x = false) :
    pyMem e (xs.filter (fun y => !(pyEq y x))) = pyMem e xs := by
  induction xs with
  | nil => rfl
  | cons y ys ih =>
      by_cases hy : pyEq y x = true
      · have hey : pyEq e y = false := by
          cases hq : pyEq e y with
          | false => rfl
          | true =>
              have : pyEq e x = pyEq y x := pyEq_congr_left e y x hq
              rw [h, hy] at this
              exact absurd this (by simp)
        rw [List.filter_cons]
        simp only [hy, Bool.not_true, Bool.false_eq_true, if_false]
        rw [ih, pyMem_cons, hey, Bool.false_or]
      · have hy' : pyEq y x = false := by simpa using hy
        rw [List.filter_cons]
        simp only [hy', Bool.not_false, if_true]
        rw [pyMem_cons, pyMem_cons, ih]

theorem distinctFirstOccurrences_mem (l : List PyVal) (e : PyVal) :
    pyMem e (distinctFirstOccurrences l) = pyMem e l := by
  induction l using distinctFirstOccurrences.induct with
  | case1 => rw [distinctFirstOccurrences]
  | case2 x xs ih =>
      rw [distinctFirstOccurrences, pyMem_cons, pyMem_cons, ih]
      by_cases he : pyEq e x = true
      · rw [he, Bool.true_or, Bool.true_or]
      · have he' : pyEq e x = false := by simpa using he
        rw [he', Bool.false_or, Bool.false_or, pyMem_filter_ne e x xs he']

/-- C8: `deduplicate` returns exactly the distinct elements of its
input (by Python `==` equality, not identity or hashing) in order of
first occurrence: it equals the spec-side `distinctFirstOccurrences`,
is a subsequence of the input (order preserved), contains no two
`==`-equal elements, preserves `==`-membership, and is never longer
than the input (the input itself, being a Lean value, is unmodified);
concretely `deduplicate([3,1,2,1,3]) == [3,1,2]` and
`deduplicate([]) == []`. -/
theorem deduplicate_spec :
    (∀ l : List PyVal, deduplicate l = distinctFirstOccurrences l)
    ∧ (∀ l : List PyVal, (deduplicate l).Sublist l)
    ∧ (∀ l : List PyVal, (deduplicate l).Pairwise (fun a b => pyEq a b = false))
    ∧ (∀ (l : List PyVal) (e : PyVal), pyMem e (deduplicate l) = pyMem e l)
    ∧ (∀ l : List PyVal, (deduplicate l).length ≤ l.length)
    ∧ deduplicate [PyVal.int 3, PyVal.int 1, PyVal.int 2, PyVal.int 1, PyVal.int 3]
        = [PyVal.int 3, PyVal.int 1, PyVal.int 2]
    ∧ deduplicate [] = [] := by
  have h1 := deduplicate_eq_distinctFirstOccurrences
  refine ⟨h1, ?_, ?_, ?_, ?_, by decide, rfl⟩
  · intro l
    rw [h1 l]
    exact distinctFirstOccurrences_sublist l
  · intro l
    rw [h1 l]
    exact distinctFirstOccurrences_pairwise l
  · intro l e
    rw [h1 l]
    exact distinctFirstOccurrences_mem l e
  · intro l
    rw [h1 l]
    exact (distinctFirstOccurrences_sublist l).length_le

/-!
Store basics for the frame development.
-/

theorem store_get_cons (p : Addr × Node) (ps : Store) (b : Addr) :
    Store.get (p :: ps) b = if p.1 == b then Option.some p.2 else Store.get ps b := by
  by_cases h : (p.1 == b) = true
  · simp [Store.get, List.find?_cons_of_pos _ h, h]
  · have h' : (p.1 == b) = false := by simpa using h
    simp [Store.get, List.find?_cons_of_neg, h']

theorem store_get_set_ne (s : Store) (a b : Addr) (n : Node) (h : b ≠ a) :
    Store.get (Store.set s a n) b = Store.get s b := by
  induction s with
  | nil => rfl
  | cons p ps ih =>
      by_cases hpa : (p.1 == a) = true
      · have hp : p.1 = a := by simpa using hpa
        have hpb : (p.1 == b) = false := by simpa using fun e => h (e.symm.trans hp)
        simp [Store.set, hpa, store_get_cons, hpb]
      · have hpa' : (p.1 == a) = false := by simpa using hpa
        simp only [Store.set, hpa', Bool.false_eq_true, if_false]
        rw [store_get_cons, store_get_cons, ih]

theorem store_get_set_self (s : Store) (a : Addr) (n m : Node)
    (h : Store.get s a = Option.some m) : Store.get (Store.set s a n) a = Option.some n := by
  induction s with
  | nil => simp [Store.get] at h
  | cons p ps ih =>
      by_cases hpa : (p.1 == a) = true
      · simp [Store.set, hpa, store_get_cons]
      · have hpa' : (p.1 == a) = false := by simpa using hpa
        rw [store_get_cons, hpa'] at h
        simp only [Bool.false_eq_true, if_false] at h
        simp only [Store.set, hpa', Bool.false_eq_true, if_false]
        rw [store_get_cons, hpa']
        simp only [Bool.false_eq_true, if_false]
        exact ih h

theorem listNodupB_head (k : String) (ks : List String) (h : listNodupB (k :: ks) = true) :
    k ∉ ks ∧ listNodupB ks = true := by
  simp only [listNodupB, Bool.and_eq_true, Bool.not_eq_true'] at h
  refine ⟨fun hm => ?_, h.2⟩
  have : ks.contains k = true := List.elem_iff.mpr hm
  rw [this] at h
  exact absurd h.1 (by simp)

/-!
Representation predicate basics.
-/

theorem reprV_mem : ∀ (v : PyVal) (s : Store) (a : Addr) (F : List Addr),
    ReprV s a v F → a ∈ F := by
  intro v s a F h
  cases v with
  | int i => rw [h.2]; exact List.mem_singleton.mpr rfl
  | str t => rw [h.2]; exact List.mem_singleton.mpr rfl
  | none => rw [h.2]; exact List.mem_singleton.mpr rfl
  | list vs =>
      obtain ⟨bs, Fc, _, _, _, hF⟩ := h
      rw [hF]; exact List.mem_cons_self a Fc
  | dict kvs =>
      obtain ⟨es, Fc, _, _, _, hF⟩ := h
      rw [hF]; exact List.mem_cons_self a Fc

theorem reprV_get_isSome : ∀ (v : PyVal) (s : Store) (a : Addr) (F : List Addr),
    ReprV s a v F → ∃ nd, Store.get s a = Option.some nd := by
  intro v s a F h
  cases v with
  | int i => exact ⟨_, h.1⟩
  | str t => exact ⟨_, h.1⟩
  | none => exact ⟨_, h.1⟩
  | list vs => obtain ⟨bs, Fc, hget, _, _, _⟩ := h; exact ⟨_, hget⟩
  | dict kvs => obtain ⟨es, Fc, hget, _, _, _⟩ := h; exact ⟨_, hget⟩

mutual

theorem reprV_mono : ∀ (v : PyVal) (s s' : Store) (a : Addr) (F : List Addr),
    ReprV s a v F → (∀ b ∈ F, Store.get s' b = Store.get s b) → ReprV s' a v F
  | PyVal.int i, s, s', a, F => fun h hag =>
      ⟨(hag a (by rw [h.2]; exact List.mem_singleton.mpr rfl)).trans h.1, h.2⟩
  | PyVal.str t, s, s', a, F => fun h hag =>
      ⟨(hag a (by rw [h.2]; exact List.mem_singleton.mpr rfl)).trans h.1, h.2⟩
  | PyVal.none, s, s', a, F => fun h hag =>
      ⟨(hag a (by rw [h.2]; exact List.mem_singleton.mpr rfl)).trans h.1, h.2⟩
  | PyVal.list vs, s, s', a, F => fun h hag => by
      obtain ⟨bs, Fc, hget, hrep, hna, hF⟩ := h
      refine ⟨bs, Fc, ?_, ?_, hna, hF⟩
      · rw [hag a (by rw [hF]; exact List.mem_cons_self a Fc)]
        exact hget
      · exact reprL_mono vs s s' bs Fc hrep
          (fun b hb => hag b (by rw [hF]; exact List.mem_cons_of_mem a hb))
  | PyVal.dict kvs, s, s', a, F => fun h hag => by
      obtain ⟨es, Fc, hget, hrep, hna, hF⟩ := h
      refine ⟨es, Fc, ?_, ?_, hna, hF⟩
      · rw [hag a (by rw [hF]; exact List.mem_cons_self a Fc)]
        exact hget
      · exact reprE_mono kvs s s' es Fc hrep
          (fun b hb => hag b (by rw [hF]; exact List.mem_cons_of_mem a hb))

theorem reprL_mono : ∀ (vs : List PyVal) (s s' : Store) (bs : List Addr) (F : List Addr),
    ReprL s bs vs F → (∀ b ∈ F, Store.get s' b = Store.get s b) → ReprL s' bs vs F
  | [], s, s', bs, F => fun h _ => h
  | v :: vrest, s, s', bs, F => fun h hag => by
      obtain ⟨b, brest, Fb, Frest, hbs, hv, hrest, hdisj, hF⟩ := h
      refine ⟨b, brest, Fb, Frest, hbs, ?_, ?_, hdisj, hF⟩
      · exact reprV_mono v s s' b Fb hv
          (fun x hx => hag x (by rw [hF]; exact List.mem_append_left Frest hx))
      · exact reprL_mono vrest s s' brest Frest hrest
          (fun x hx => hag x (by rw [hF]; exact List.mem_append_right Fb hx))

theorem reprE_mono :
    ∀ (kvs : List (String × PyVal)) (s s' : Store) (es : List (String × Addr)) (F : List Addr),
    ReprE s es kvs F → (∀ b ∈ F, Store.get s' b = Store.get s b) → ReprE s' es kvs F
  | [], s, s', es, F => fun h _ => h
  | (k, v) :: vrest, s, s', es, F => fun h hag => by
      obtain ⟨b, erest, Fb, Frest, hes, hv, hrest, hdisj, hF⟩ := h
      refine ⟨b, erest, Fb, Frest, hes, ?_, ?_, hdisj, hF⟩
      · exact reprV_mono v s s' b Fb hv
          (fun x hx => hag x (by rw [hF]; exact List.mem_append_left Frest hx))
      · exact reprE_mono vrest s s' erest Frest hrest
          (fun x hx => hag x (by rw [hF]; exact List.mem_append_right Fb hx))

end

theorem reprL_cons_inv (s : Store) (b : Addr) (brest : List Addr) (vs : List PyVal)
    (F : List Addr) (h : ReprL s (b :: brest) vs F) :
    ∃ v vrest Fb Frest, vs = v :: vrest ∧ ReprV s b v Fb ∧ ReprL s brest vrest Frest ∧
      (∀ x ∈ Fb, x ∉ Frest) ∧ F = Fb ++ Frest := by
  cases vs with
  | nil => exact absurd h.1 (by simp)
  | cons v vrest =>
      obtain ⟨b', brest', Fb, Frest, hbs, hv, hrest, hdisj, hF⟩ := h
      injection hbs with hb hbrest
      subst hb
      subst hbrest
      exact ⟨v, vrest, Fb, Frest, rfl, hv, hrest, hdisj, hF⟩

theorem reprE_cons_inv (s : Store) (k : String) (b : Addr) (erest : List (String × Addr))
    (kvs : List (String × PyVal)) (F : List Addr) (h : ReprE s ((k, b) :: erest) kvs F) :
    ∃ v vrest Fb Frest, kvs = (k, v) :: vrest ∧ ReprV s b v Fb ∧ ReprE s erest vrest Frest ∧
      (∀ x ∈ Fb, x ∉ Frest) ∧ F = Fb ++ Frest := by
  cases kvs with
  | nil => exact absurd h.1 (by simp)
  | cons kv vrest =>
      obtain ⟨k', v⟩ := kv
      obtain ⟨b', erest', Fb, Frest, hes, hv, hrest, hdisj, hF⟩ := h
      injection hes with he herest
      injection he with hk hb
      subst hk
      subst hb
      subst herest
      exact ⟨v, vrest, Fb, Frest, rfl, hv, hrest, hdisj, hF⟩

theorem reprE_keys :
    ∀ (kvs : List (String × PyVal)) (s : Store) (es : List (String × Addr)) (F : List Addr),
    ReprE s es kvs F → es.map Prod.fst = kvs.map Prod.fst := by
  intro kvs
  induction kvs with
  | nil => intro s es F h; rw [h.1]; rfl
  | cons kv vrest ih =>
      intro s es F h
      obtain ⟨k, v⟩ := kv
      obtain ⟨b, erest, Fb, Frest, hes, _, hrest, _, _⟩ := h
      subst hes
      simp only [List.map_cons]
      rw [ih s erest Frest hrest]

/-!
Size arithmetic for fuel bounds.
-/

theorem psizeL_cons (v : PyVal) (vs : List PyVal) : psizeL (v :: vs) = psize v + psizeL vs := rfl

theorem psizeE_cons (e : String × PyVal) (es : List (String × PyVal)) :
    psizeE (e :: es) = psize e.2 + psizeE es := rfl

theorem psizeE_append (a b : List (String × PyVal)) : psizeE (a ++ b) = psizeE a + psizeE b := by
  induction a with
  | nil => simp [psizeE]
  | cons e es ih => simp only [List.cons_append, psizeE_cons, ih]; omega

theorem psizeE_filter_le (l : List (String × PyVal)) (p : String × PyVal → Bool) :
    psizeE (l.filter p) ≤ psizeE l := by
  induction l with
  | nil => exact Nat.le_refl 0
  | cons e es ih =>
      rw [List.filter_cons]
      by_cases h : p e = true
      · simp only [h, if_true, psizeE_cons]
        omega
      · have h' : p e = false := by simpa using h
        simp only [h', Bool.false_eq_true, if_false, psizeE_cons]
        omega

/-!
Reading a represented value always succeeds with enough fuel.
-/

mutual

theorem reprV_readVal : ∀ (v : PyVal) (s : Store) (a : Addr) (F : List Addr) (fuel : Nat),
    ReprV s a v F → psize v ≤ fuel → readVal fuel s a = Option.some v
  | PyVal.int i, s, a, F, fuel => fun h hf => by
      cases fuel with
      | zero => exact absurd hf (by simp [psize])
      | succ f => simp [readVal, h.1]
  | PyVal.str t, s, a, F, fuel => fun h hf => by
      cases fuel with
      | zero => exact absurd hf (by simp [psize])
      | succ f => simp [readVal, h.1]
  | PyVal.none, s, a, F, fuel => fun h hf => by
      cases fuel with
      | zero => exact absurd hf (by simp [psize])
      | succ f => simp [readVal, h.1]
  | PyVal.list vs, s, a, F, fuel => fun h hf => by
      obtain ⟨bs, Fc, hget, hrep, _, _⟩ := h
      cases fuel with
      | zero => exact absurd hf (by simp [psize])
      | succ f =>
          have hsz : psizeL vs ≤ f := by
            simp only [psize] at hf
            omega
          simp [readVal, hget, reprL_readListAux vs s bs Fc f hrep hsz]
  | PyVal.dict kvs, s, a, F, fuel => fun h hf => by
      obtain ⟨es, Fc, hget, hrep, _, _⟩ := h
      cases fuel with
      | zero => exact absurd hf (by simp [psize])
      | succ f =>
          have hsz : psizeE kvs ≤ f := by
            simp only [psize] at hf
            omega
          simp [readVal, hget, reprE_readEntriesAux kvs s es Fc f hrep hsz]

theorem reprL_readListAux :
    ∀ (vs : List PyVal) (s : Store) (bs : List Addr) (F : List Addr) (fuel : Nat),
    ReprL s bs vs F → psizeL vs ≤ fuel →
    readListAux (fun b => readVal fuel s b) bs = Option.some vs
  | [], s, bs, F, fuel => fun h _ => by
      rw [h.1]
      rfl
  | v :: vrest, s, bs, F, fuel => fun h hf => by
      obtain ⟨b, brest, Fb, Frest, hbs, hv, hrest, _, _⟩ := h
      subst hbs
      have h1 : psize v ≤ fuel := by
        have := psizeL_cons v vrest
        omega
      have h2 : psizeL vrest ≤ fuel := by
        have := psizeL_cons v vrest
        have := psize_pos v
        omega
      simp [readListAux, reprV_readVal v s b Fb fuel hv h1,
        reprL_readListAux vrest s brest Frest fuel hrest h2]

theorem reprE_readEntriesAux :
    ∀ (kvs : List (String × PyVal)) (s : Store) (es : List (String × Addr)) (F : List Addr)
      (fuel : Nat),
    ReprE s es kvs F → psizeE kvs ≤ fuel →
    readEntriesAux (fun b => readVal fuel s b) es = Option.some kvs
  | [], s, es, F, fuel => fun h _ => by
      rw [h.1]
      rfl
  | (k, v) :: vrest, s, es, F, fuel => fun h hf => by
      obtain ⟨b, erest, Fb, Frest, hes, hv, hrest, _, _⟩ := h
      subst hes
      have hc : psizeE ((k, v) :: vrest) = psize v + psizeE vrest := rfl
      have h1 : psize v ≤ fuel := by omega
      have h2 : psizeE vrest ≤ fuel := by
        have := psize_pos v
        omega
      simp [readEntriesAux, reprV_readVal v s b Fb fuel hv h1,
        reprE_readEntriesAux vrest s erest Frest fuel hrest h2]

end

/-!
Footprint surgery: appending, reversing, splitting and filtering
represented entry lists.
-/

theorem reprL_append :
    ∀ (vs1 : List PyVal) (s : Store) (bs1 bs2 : List Addr) (vs2 : List PyVal) (F1 F2 : List Addr),
    ReprL s bs1 vs1 F1 → ReprL s bs2 vs2 F2 → (∀ x ∈ F1, x ∉ F2) →
    ReprL s (bs1 ++ bs2) (vs1 ++ vs2) (F1 ++ F2)
  | [], s, bs1, bs2, vs2, F1, F2 => fun h1 h2 _ => by
      rw [h1.1, h1.2]
      simpa using h2
  | v :: vrest, s, bs1, bs2, vs2, F1, F2 => fun h1 h2 hd => by
      obtain ⟨b, brest, Fb, Frest, hbs, hv, hrest, hdisj, hF⟩ := h1
      subst hbs
      subst hF
      refine ⟨b, brest ++ bs2, Fb, Frest ++ F2, by simp, hv, ?_, ?_, by simp⟩
      · exact reprL_append vrest s brest bs2 vs2 Frest F2 hrest h2
          (fun x hx => hd x (List.mem_append_right Fb hx))
      · intro x hx
        simp only [List.mem_append]
        push_neg
        exact ⟨hdisj x hx, hd x (List.mem_append_left Frest hx)⟩

theorem reprE_append :
    ∀ (kvs1 : List (String × PyVal)) (s : Store) (es1 es2 : List (String × Addr))
      (kvs2 : List (String × PyVal)) (F1 F2 : List Addr),
    ReprE s es1 kvs1 F1 → ReprE s es2 kvs2 F2 → (∀ x ∈ F1, x ∉ F2) →
    ReprE s (es1 ++ es2) (kvs1 ++ kvs2) (F1 ++ F2)
  | [], s, es1, es2, kvs2, F1, F2 => fun h1 h2 _ => by
      rw [h1.1, h1.2]
      simpa using h2
  | (k, v) :: vrest, s, es1, es2, kvs2, F1, F2 => fun h1 h2 hd => by
      obtain ⟨b, erest, Fb, Frest, hes, hv, hrest, hdisj, hF⟩ := h1
      subst hes
      subst hF
      refine ⟨b, erest ++ es2, Fb, Frest ++ F2, by simp, hv, ?_, ?_, by simp⟩
      · exact reprE_append vrest s erest es2 kvs2 Frest F2 hrest h2
          (fun x hx => hd x (List.mem_append_right Fb hx))
      · intro x hx
        simp only [List.mem_append]
        push_neg
        exact ⟨hdisj x hx, hd x (List.mem_append_left Frest hx)⟩

theorem reprL_reverse :
    ∀ (vs : List PyVal) (s : Store) (bs : List Addr) (F : List Addr),
    ReprL s bs vs F →
    ∃ F', ReprL s bs.reverse vs.reverse F' ∧ ∀ x, x ∈ F' ↔ x ∈ F
  | [], s, bs, F => fun h => by
      rw [h.1, h.2]
      exact ⟨[], ⟨rfl, rfl⟩, fun x => Iff.rfl⟩
  | v :: vrest, s, bs, F => fun h => by
      obtain ⟨b, brest, Fb, Frest, hbs, hv, hrest, hdisj, hF⟩ := h
      subst hbs
      subst hF
      obtain ⟨F1, hrev, hiff⟩ := reprL_reverse vrest s brest Frest hrest
      refine ⟨F1 ++ (Fb ++ []), ?_, ?_⟩
      · simp only [List.reverse_cons]
        refine reprL_append vrest.reverse s brest.reverse [b] [v] F1 (Fb ++ []) hrev ?_ ?_
        · exact ⟨b, [], Fb, [], rfl, hv, ⟨rfl, rfl⟩, by simp, rfl⟩
        · intro x hx
          simp only [List.append_nil, List.mem_append]
          exact fun hxb => hdisj x hxb ((hiff x).mp hx)
      · intro x
        simp only [List.append_nil, List.mem_append, hiff x]
        tauto

theorem reprE_append_inv :
    ∀ (es1 : List (String × Addr)) (s : Store) (es2 : List (String × Addr))
      (kvs : List (String × PyVal)) (F : List Addr),
    ReprE s (es1 ++ es2) kvs F →
    ∃ kvs1 kvs2 F1 F2, kvs = kvs1 ++ kvs2 ∧ F = F1 ++ F2 ∧
      ReprE s es1 kvs1 F1 ∧ ReprE s es2 kvs2 F2 ∧ ∀ x ∈ F1, x ∉ F2 := by
  intro es1
  induction es1 with
  | nil =>
      intro s es2 kvs F h
      exact ⟨[], kvs, [], F, rfl, rfl, ⟨rfl, rfl⟩, h, by simp⟩
  | cons e es1' ih =>
      intro s es2 kvs F h
      obtain ⟨k, b⟩ := e
      obtain ⟨v, vrest, Fb, Frest, hkvs, hv, hrest, hdisj, hF⟩ :=
        reprE_cons_inv s k b (es1' ++ es2) kvs F h
      obtain ⟨kvs1, kvs2, F1, F2, hvrest, hFrest, h1, h2, hd⟩ := ih s es2 vrest Frest hrest
      refine ⟨(k, v) :: kvs1, kvs2, Fb ++ F1, F2, by simp [hkvs, hvrest], ?_, ?_, h2, ?_⟩
      · rw [hF, hFrest, List.append_assoc]
      · refine ⟨b, es1', Fb, F1, rfl, hv, h1, ?_, rfl⟩
        exact fun x hx h1x => hdisj x hx (hFrest ▸ List.mem_append_left F2 h1x)
      · intro x hx
        simp only [List.mem_append] at hx
        rcases hx with hx | hx
        · exact fun h2x => hdisj x hx (hFrest ▸ List.mem_append_right F1 h2x)
        · exact hd x hx

theorem reprE_filterKeys :
    ∀ (kvs : List (String × PyVal)) (s : Store) (es : List (String × Addr)) (F : List Addr)
      (kp : String → Bool),
    ReprE s es kvs F →
    ∃ F', ReprE s (es.filter (fun e => kp e.1)) (kvs.filter (fun e => kp e.1)) F'
      ∧ ∀ x ∈ F', x ∈ F
  | [], s, es, F, kp => fun h => by
      rw [h.1]
      exact ⟨[], ⟨rfl, rfl⟩, by simp⟩
  | (k, v) :: vrest, s, es, F, kp => fun h => by
      obtain ⟨b, erest, Fb, Frest, hes, hv, hrest, hdisj, hF⟩ := h
      subst hes
      subst hF
      obtain ⟨F1, hrep1, hsub1⟩ := reprE_filterKeys vrest s erest Frest kp hrest
      by_cases hkp : kp k = true
      · refine ⟨Fb ++ F1, ?_, ?_⟩
        · simp only [List.filter_cons, hkp, if_true]
          exact ⟨b, erest.filter (fun e => kp e.1), Fb, F1, rfl, hv, hrep1,
            fun x hx h1x => hdisj x hx (hsub1 x h1x), rfl⟩
        · intro x hx
          simp only [List.mem_append] at hx ⊢
          rcases hx with hx | hx
          · exact Or.inl hx
          · exact Or.inr (hsub1 x hx)
      · have hkp' : kp k = false := by simpa using hkp
        refine ⟨F1, ?_, fun x hx => List.mem_append_right Fb (hsub1 x hx)⟩
        simp only [List.filter_cons, hkp', Bool.false_eq_true, if_false]
        exact hrep1

/-!
Lookup loop helpers for the store-level merge.
-/

theorem find?_split {α : Type} (p : α → Bool) :
    ∀ (l : List α) (e : α), l.find? p = Option.some e →
      ∃ l₁ l₂, l = l₁ ++ e :: l₂ ∧ ∀ x ∈ l₁, p x = false := by
  intro l
  induction l with
  | nil => intro e h; simp [List.find?] at h
  | cons x xs ih =>
      intro e h
      by_cases hx : p x = true
      · rw [List.find?_cons_of_pos _ hx] at h
        injection h with h
        subst h
        exact ⟨[], xs, rfl, by simp⟩
      · have hx' : p x = false := by simpa using hx
        rw [List.find?_cons_of_neg _ (by simp [hx'])] at h
        obtain ⟨l₁, l₂, heq, hall⟩ := ih e h
        refine ⟨x :: l₁, l₂, by rw [heq]; rfl, ?_⟩
        intro y hy
        rcases List.mem_cons.mp hy with hy | hy
        · rw [hy]; exact hx'
        · exact hall y hy

theorem find?_filter_of_imp {α : Type} (p q : α → Bool) (himp : ∀ e, p e = true → q e = true) :
    ∀ l : List α, (l.filter q).find? p = l.find? p := by
  intro l
  induction l with
  | nil => rfl
  | cons x xs ih =>
      by_cases hq : q x = true
      · rw [List.filter_cons_of_pos hq]
        by_cases hp : p x = true
        · rw [List.find?_cons_of_pos _ hp, List.find?_cons_of_pos _ hp]
        · have hp' : p x = false := by simpa using hp
          rw [List.find?_cons_of_neg _ (by simp [hp']), List.find?_cons_of_neg _ (by simp [hp'])]
          exact ih
      · have hq' : q x = false := by simpa using hq
        have hp' : p x = false := by
          cases hp : p x with
          | false => rfl
          | true => exact absurd (himp x hp) (by simp [hq'])
        rw [List.filter_cons_of_neg (by simp [hq']), List.find?_cons_of_neg _ (by simp [hp'])]
        exact ih

theorem filter_of_keySub {α : Type} (p q : α → Bool) (himp : ∀ e, q e = true → p e = true)
    (l : List α) : l.filter q = (l.filter p).filter q := by
  induction l with
  | nil => rfl
  | cons x xs ih =>
      by_cases hq : q x = true
      · have hp : p x = true := himp x hq
        rw [List.filter_cons_of_pos hq, List.filter_cons_of_pos hp,
          List.filter_cons_of_pos hq, ih]
      · have hq' : q x = false := by simpa using hq
        by_cases hp : p x = true
        · rw [List.filter_cons_of_neg (by simp [hq']), List.filter_cons_of_pos hp,
            List.filter_cons_of_neg (by simp [hq'])]
          exact ih
        · have hp' : p x = false := by simpa using hp
          rw [List.filter_cons_of_neg (by simp [hq']), List.filter_cons_of_neg (by simp [hp'])]
          exact ih

theorem listLoop_ok :
    ∀ (ivs : List PyVal) (s : Store) (items : List Addr) (Fi : List Addr)
      (avs : List PyVal) (acc : List Addr) (Fa : List Addr) (u : Bool) (fuel : Nat),
    ReprL s items ivs Fi → ReprL s acc avs Fa → (∀ x ∈ Fi, x ∉ Fa) →
    psizeL ivs + psizeL avs ≤ fuel →
    ∃ acc', listLoopAux (fun b => readVal fuel s b) u items acc = Option.some acc'
  | [], s, items, Fi, avs, acc, Fa, u, fuel => fun hi _ _ _ => by
      rw [hi.1]
      exact ⟨acc, rfl⟩
  | vi :: irest, s, items, Fi, avs, acc, Fa, u, fuel => fun hi ha hd hf => by
      obtain ⟨ia, itemsRest, Fvi, Firest, hitems, hvi, hirest, hdisj, hFi⟩ := hi
      subst hitems
      subst hFi
      have hszc : psizeL (vi :: irest) = psize vi + psizeL irest := rfl
      have hvsz : psize vi ≤ fuel := by omega
      have hasz : psizeL avs ≤ fuel := by omega
      have hconsRepr : ReprL s (ia :: acc) (vi :: avs) (Fvi ++ Fa) :=
        ⟨ia, acc, Fvi, Fa, rfl, hvi, ha,
          fun x hx => hd x (List.mem_append_left Firest hx), rfl⟩
      have hdNext : ∀ x ∈ Firest, x ∉ Fvi ++ Fa := by
        intro x hx
        simp only [List.mem_append]
        push_neg
        exact ⟨fun hxv => hdisj x hxv hx, hd x (List.mem_append_right Fvi hx)⟩
      have hdKeep : ∀ x ∈ Firest, x ∉ Fa :=
        fun x hx => hd x (List.mem_append_right Fvi hx)
      have hfNext : psizeL irest + psizeL (vi :: avs) ≤ fuel := by
        have : psizeL (vi :: avs) = psize vi + psizeL avs := rfl
        omega
      have hfKeep : psizeL irest + psizeL avs ≤ fuel := by
        have := psize_pos vi
        omega
      cases u with
      | false =>
          simp only [listLoopAux, Bool.false_eq_true, if_false]
          exact listLoop_ok irest s itemsRest Firest (vi :: avs) (ia :: acc) (Fvi ++ Fa)
            false fuel hirest hconsRepr hdNext hfNext
      | true =>
          simp only [listLoopAux, if_true]
          rw [reprV_readVal vi s ia Fvi fuel hvi hvsz,
            reprL_readListAux avs s acc Fa fuel ha hasz]
          by_cases hmem : avs.any (fun w => pyEq vi w) = true
          · simp only [hmem, if_true]
            exact listLoop_ok irest s itemsRest Firest avs acc Fa true fuel
              hirest ha hdKeep hfKeep
          · have hmem' : avs.any (fun w => pyEq vi w) = false := by simpa using hmem
            simp only [hmem', Bool.false_eq_true, if_false]
            exact listLoop_ok irest s itemsRest Firest (vi :: avs) (ia :: acc) (Fvi ++ Fa)
              true fuel hirest hconsRepr hdNext hfNext

theorem psizeL_append (a b : List PyVal) : psizeL (a ++ b) = psizeL a + psizeL b := by
  induction a with
  | nil => simp [psizeL]
  | cons v vs ih => simp only [List.cons_append, psizeL_cons, ih]; omega

theorem psizeL_reverse (l : List PyVal) : psizeL l.reverse = psizeL l := by
  induction l with
  | nil => rfl
  | cons v vs ih =>
      simp only [List.reverse_cons, psizeL_append, psizeL_cons, ih, psizeL]
      omega

theorem contains_eq_false_of_not_mem (l : List String) (k : String) (h : k ∉ l) :
    l.contains k = false := by
  cases hc : l.contains k with
  | false => rfl
  | true => exact absurd (List.elem_iff.mp hc) h

theorem contains_eq_true_of_mem (l : List String) (k : String) (h : k ∈ l) :
    l.contains k = true := List.elem_iff.mpr h

theorem mergeS_mismatch (f : Nat) (s : Store) (ao an : Addr) (u : Bool) (no nn : Node)
    (ho : Store.get s ao = Option.some no) (hn : Store.get s an = Option.some nn)
    (hml : ∀ lo ln, ¬(no = Node.listN lo ∧ nn = Node.listN ln))
    (hmd : ∀ eo en, ¬(no = Node.dictN eo ∧ nn = Node.dictN en)) :
    mergeS (f + 1) s ao an u = Option.some s := by
  cases no <;> cases nn <;>
    first
      | exact absurd ⟨rfl, rfl⟩ (hml _ _)
      | exact absurd ⟨rfl, rfl⟩ (hmd _ _)
      | simp [mergeS, ho, hn]

/-!
The frame theorem: on tree-shaped (internally non-aliased) inputs whose
object graphs are disjoint, the store-level merge terminates (given
fuel at least the combined size) and only ever writes inside the
footprint of `new`; `old`'s cells are untouched.  The loop invariant
tracks only the entries of `new`'s dict whose keys are still to be
processed (`kvsLive`), because entries already merged may by then alias
into `old`'s graph.
-/

mutual

theorem mergeS_frame :
    ∀ (vo : PyVal) (vn : PyVal) (fuel : Nat) (s : Store) (ao an : Addr)
      (Fo Fn : List Addr) (u : Bool),
    ReprV s ao vo Fo → ReprV s an vn Fn → (∀ x ∈ Fo, x ∉ Fn) →
    wfKeys vo = true →
    psize vo + psize vn ≤ fuel →
    ∃ s', mergeS fuel s ao an u = Option.some s'
      ∧ ∀ b, b ∉ Fn → Store.get s' b = Store.get s b
  | vo, vn, fuel, s, ao, an, Fo, Fn, u => fun ho hn hd hwf hf => by
      have hpo := psize_pos vo
      have hpn := psize_pos vn
      cases fuel with
      | zero => omega
      | succ f =>
      have ho' := ho
      have hn' := hn
      cases vo with
      | int i =>
          obtain ⟨nd, hgetn⟩ := reprV_get_isSome vn s an Fn hn
          exact ⟨s, mergeS_mismatch f s ao an u _ nd ho.1 hgetn
            (fun lo ln h => by simp at h) (fun eo en h => by simp at h), fun b _ => rfl⟩
      | str t =>
          obtain ⟨nd, hgetn⟩ := reprV_get_isSome vn s an Fn hn
          exact ⟨s, mergeS_mismatch f s ao an u _ nd ho.1 hgetn
            (fun lo ln h => by simp at h) (fun eo en h => by simp at h), fun b _ => rfl⟩
      | none =>
          obtain ⟨nd, hgetn⟩ := reprV_get_isSome vn s an Fn hn
          exact ⟨s, mergeS_mismatch f s ao an u _ nd ho.1 hgetn
            (fun lo ln h => by simp at h) (fun eo en h => by simp at h), fun b _ => rfl⟩
      | list los =>
          obtain ⟨loAddrs, FoL, hgeto, hrepo, hnao, hFo⟩ := ho
          cases vn with
          | int j =>
              exact ⟨s, mergeS_mismatch f s ao an u _ _ hgeto hn.1
                (fun lo ln h => by simp at h) (fun eo en h => by simp at h), fun b _ => rfl⟩
          | str t2 =>
              exact ⟨s, mergeS_mismatch f s ao an u _ _ hgeto hn.1
                (fun lo ln h => by simp at h) (fun eo en h => by simp at h), fun b _ => rfl⟩
          | none =>
              exact ⟨s, mergeS_mismatch f s ao an u _ _ hgeto hn.1
                (fun lo ln h => by simp at h) (fun eo en h => by simp at h), fun b _ => rfl⟩
          | dict nkvs =>
              obtain ⟨en, FnE, hgetn, _, _, _⟩ := hn
              exact ⟨s, mergeS_mismatch f s ao an u _ _ hgeto hgetn
                (fun lo ln h => by simp at h) (fun eo en h => by simp at h), fun b _ => rfl⟩
          | list lns =>
              obtain ⟨lnAddrs, FnL, hgetn, hrepn, hnan, hFn⟩ := hn
              have hszo : psize (PyVal.list los) ≤ f := by omega
              have hszn : psize (PyVal.list lns) ≤ f := by omega
              have hro : readVal f s ao = Option.some (PyVal.list los) :=
                reprV_readVal (PyVal.list los) s ao Fo f ho' hszo
              have hrn : readVal f s an = Option.some (PyVal.list lns) :=
                reprV_readVal (PyVal.list lns) s an Fn f hn' hszn
              by_cases hpe : pyEq (PyVal.list los) (PyVal.list lns) = true
              · refine ⟨s, ?_, fun b _ => rfl⟩
                simp [mergeS, hgeto, hgetn, hro, hrn, hpe]
              · have hpe' : pyEq (PyVal.list los) (PyVal.list lns) = false := by simpa using hpe
                obtain ⟨Fi, hrev, hiffi⟩ := reprL_reverse los s loAddrs FoL hrepo
                have hdloop : ∀ x ∈ Fi, x ∉ FnL := by
                  intro x hx
                  have hxF : x ∈ Fo := by
                    rw [hFo]
                    exact List.mem_cons_of_mem ao ((hiffi x).mp hx)
                  intro hxn
                  exact hd x hxF (by rw [hFn]; exact List.mem_cons_of_mem an hxn)
                have hfl : psizeL los.reverse + psizeL lns ≤ f := by
                  rw [psizeL_reverse]
                  have e1 : psize (PyVal.list los) = 1 + psizeL los := rfl
                  have e2 : psize (PyVal.list lns) = 1 + psizeL lns := rfl
                  omega
                obtain ⟨acc', hloop⟩ := listLoop_ok los.reverse s loAddrs.reverse Fi lns
                  lnAddrs FnL u f hrev hrepn hdloop hfl
                refine ⟨Store.set s an (Node.listN acc'), ?_, ?_⟩
                · simp [mergeS, hgeto, hgetn, hro, hrn, hpe', hloop]
                · intro b hb
                  have hbne : b ≠ an := by
                    intro e
                    exact hb (by rw [hFn, e]; exact List.mem_cons_self an FnL)
                  exact store_get_set_ne s an b _ hbne
      | dict okvs =>
          obtain ⟨eo, FoR, hgeto, hrepo, hnao, hFo⟩ := ho
          cases vn with
          | int j =>
              exact ⟨s, mergeS_mismatch f s ao an u _ _ hgeto hn.1
                (fun lo ln h => by simp at h) (fun eo2 en h => by simp at h), fun b _ => rfl⟩
          | str t2 =>
              exact ⟨s, mergeS_mismatch f s ao an u _ _ hgeto hn.1
                (fun lo ln h => by simp at h) (fun eo2 en h => by simp at h), fun b _ => rfl⟩
          | none =>
              exact ⟨s, mergeS_mismatch f s ao an u _ _ hgeto hn.1
                (fun lo ln h => by simp at h) (fun eo2 en h => by simp at h), fun b _ => rfl⟩
          | list lns =>
              obtain ⟨lnAddrs, FnL, hgetn, _, _, _⟩ := hn
              exact ⟨s, mergeS_mismatch f s ao an u _ _ hgeto hgetn
                (fun lo ln h => by simp at h) (fun eo2 en h => by simp at h), fun b _ => rfl⟩
          | dict nkvs =>
              obtain ⟨en, FnE, hgetn, hrepn, hnan, hFn⟩ := hn
              have hwf2 : listNodupB (okvs.map Prod.fst) = true ∧ wfKeysE okvs = true := by
                simpa [wfKeys, Bool.and_eq_true] using hwf
              obtain ⟨FL, hlive, hsubL⟩ := reprE_filterKeys nkvs s en FnE
                (fun k => (okvs.map Prod.fst).contains k) hrepn
              have hdisjOR : ∀ x ∈ FoR, x ∉ FL := by
                intro x hx hxl
                exact hd x (by rw [hFo]; exact List.mem_cons_of_mem ao hx)
                  (by rw [hFn]; exact List.mem_cons_of_mem an (hsubL x hxl))
              have hanFoR : an ∉ FoR := by
                intro hmem
                exact hd an (by rw [hFo]; exact List.mem_cons_of_mem ao hmem)
                  (by rw [hFn]; exact List.mem_cons_self an FnE)
              have hanFL : an ∉ FL := fun hmem => hnan (hsubL an hmem)
              have hfl : psizeE okvs + psizeE (nkvs.filter
                  (fun e => (okvs.map Prod.fst).contains e.1)) ≤ f := by
                have e1 : psize (PyVal.dict okvs) = 1 + psizeE okvs := rfl
                have e2 : psize (PyVal.dict nkvs) = 1 + psizeE nkvs := rfl
                have := psizeE_filter_le nkvs (fun e => (okvs.map Prod.fst).contains e.1)
                omega
              obtain ⟨s', hrun, hframe⟩ := dictLoop_frame okvs f s an eo en
                (nkvs.filter (fun e => (okvs.map Prod.fst).contains e.1)) FoR FL
                hrepo hgetn hlive hwf2.1 hwf2.2 hdisjOR hanFoR hanFL hfl
              refine ⟨s', ?_, ?_⟩
              · simp only [mergeS, hgeto, hgetn]
                exact hrun
              · intro b hb
                refine hframe b ?_
                intro hmem
                rcases List.mem_cons.mp hmem with he | hmem2
                · exact hb (by rw [hFn, he]; exact List.mem_cons_self an FnE)
                · exact hb (by rw [hFn]; exact List.mem_cons_of_mem an (hsubL b hmem2))

theorem dictLoop_frame :
    ∀ (okvs : List (String × PyVal)) (fuel : Nat) (s : Store) (an : Addr)
      (eo en : List (String × Addr)) (kvsLive : List (String × PyVal))
      (FoR FL : List Addr),
    ReprE s eo okvs FoR →
    Store.get s an = Option.some (Node.dictN en) →
    ReprE s (en.filter (fun e => (okvs.map Prod.fst).contains e.1)) kvsLive FL →
    listNodupB (okvs.map Prod.fst) = true →
    wfKeysE okvs = true →
    (∀ x ∈ FoR, x ∉ FL) → an ∉ FoR → an ∉ FL →
    psizeE okvs + psizeE kvsLive ≤ fuel →
    ∃ s', dictLoopAux (fun s1 va wb => mergeS fuel s1 va wb false) an eo s = Option.some s'
      ∧ ∀ b, b ∉ an :: FL → Store.get s' b = Store.get s b
  | [], fuel, s, an, eo, en, kvsLive, FoR, FL => fun hrepo _ _ _ _ _ _ _ _ => by
      rw [hrepo.1]
      exact ⟨s, rfl, fun b _ => rfl⟩
  | (k, vo1) :: orest, fuel, s, an, eo, en, kvsLive, FoR, FL =>
      fun hrepo hgetan hlive hnd hwfE hdisj hanO hanL hf => by
      obtain ⟨va, erest, Fva, Forest, heo, hva, horest, hdisjva, hFoR⟩ := hrepo
      subst heo
      subst hFoR
      obtain ⟨hknot, hndrest⟩ := listNodupB_head k (orest.map Prod.fst) (by simpa using hnd)
      have hwf1 : wfKeys vo1 = true ∧ wfKeysE orest = true := by
        simpa [wfKeysE, Bool.and_eq_true] using hwfE
      have hkeyimp : ∀ e : String × Addr, (e.1 == k) = true →
          (((k, vo1) :: orest).map Prod.fst).contains e.1 = true := by
        intro e he
        have : e.1 = k := by simpa using he
        exact contains_eq_true_of_mem _ _ (by rw [this]; simp)
      have hcontk : (orest.map Prod.fst).contains k = false :=
        contains_eq_false_of_not_mem _ k hknot
      have hkxn : ∀ x : PyVal, (k, x) ∉ orest :=
        fun x hx => hknot (List.mem_map.mpr ⟨(k, x), hx, rfl⟩)
      have hsubkeys : ∀ e : String × Addr,
          (orest.map Prod.fst).contains e.1 = true →
          (((k, vo1) :: orest).map Prod.fst).contains e.1 = true := by
        intro e he
        have : e.1 ∈ orest.map Prod.fst := List.elem_iff.mp he
        exact contains_eq_true_of_mem _ _ (by simp [this])
      have hfilshrink : en.filter (fun e => (orest.map Prod.fst).contains e.1)
          = (en.filter (fun e => (((k, vo1) :: orest).map Prod.fst).contains e.1)).filter
              (fun e => (orest.map Prod.fst).contains e.1) :=
        filter_of_keySub _ _ hsubkeys en
      have hpsz1 : psizeE ((k, vo1) :: orest) = psize vo1 + psizeE orest := rfl
      have hpos1 := psize_pos vo1
      cases hfind : en.find? (fun e => e.1 == k) with
      | none =>
          have hred : dictLoopAux (fun s1 va2 wb => mergeS fuel s1 va2 wb false) an
              (((k, va)) :: erest) s
              = dictLoopAux (fun s1 va2 wb => mergeS fuel s1 va2 wb false) an erest
                  (Store.set s an (Node.dictN (en ++ [(k, va)]))) := by
            simp [dictLoopAux, hgetan, hfind]
          set s₁ := Store.set s an (Node.dictN (en ++ [(k, va)])) with hs₁
          have hag : ∀ b, b ≠ an → Store.get s₁ b = Store.get s b := by
            intro b hb
            exact store_get_set_ne s an b _ hb
          have hget₁ : Store.get s₁ an = Option.some (Node.dictN (en ++ [(k, va)])) :=
            store_get_set_self s an _ _ hgetan
          have horest₁ : ReprE s₁ erest orest Forest :=
            reprE_mono orest s s₁ erest Forest horest
              (fun b hb => hag b (fun e => hanO (e ▸ List.mem_append_right Fva hb)))
          have hfil₁ : (en ++ [(k, va)]).filter (fun e => (orest.map Prod.fst).contains e.1)
              = (en.filter (fun e => (((k, vo1) :: orest).map Prod.fst).contains e.1)).filter
                  (fun e => (orest.map Prod.fst).contains e.1) := by
            rw [List.filter_append]
            have : ([(k, va)].filter (fun e => (orest.map Prod.fst).contains e.1)) = [] := by
              rw [List.filter_cons_of_neg]
              · rfl
              · simp [hcontk, hkxn]
            rw [this, List.append_nil]
            exact hfilshrink
          obtain ⟨FL₁, hlive₁s, hsub₁⟩ := reprE_filterKeys kvsLive s
            (en.filter (fun e => (((k, vo1) :: orest).map Prod.fst).contains e.1)) FL
            (fun k2 => (orest.map Prod.fst).contains k2) hlive
          have hlive₁ : ReprE s₁
              ((en ++ [(k, va)]).filter (fun e => (orest.map Prod.fst).contains e.1))
              (kvsLive.filter (fun e => (orest.map Prod.fst).contains e.1)) FL₁ := by
            rw [hfil₁]
            exact reprE_mono _ s s₁ _ FL₁ hlive₁s
              (fun b hb => hag b (fun e => hanL (e ▸ hsub₁ b hb)))
          have hfl₁ : psizeE orest
              + psizeE (kvsLive.filter (fun e => (orest.map Prod.fst).contains e.1))
              ≤ fuel := by
            have := psizeE_filter_le kvsLive (fun e => (orest.map Prod.fst).contains e.1)
            omega
          obtain ⟨s', hrun, hframe⟩ := dictLoop_frame orest fuel s₁ an erest
            (en ++ [(k, va)]) (kvsLive.filter (fun e => (orest.map Prod.fst).contains e.1))
            Forest FL₁ horest₁ hget₁ hlive₁ hndrest hwf1.2
            (fun x hx hxl => hdisj x (List.mem_append_right Fva hx) (hsub₁ x hxl))
            (fun hmem => hanO (List.mem_append_right Fva hmem))
            (fun hmem => hanL (hsub₁ an hmem)) hfl₁
          refine ⟨s', by rw [hred]; exact hrun, ?_⟩
          intro b hb
          have hbne : b ≠ an := fun e => hb (e ▸ List.mem_cons_self an FL)
          have hbl : b ∉ FL := fun hmem => hb (List.mem_cons_of_mem an hmem)
          rw [hframe b ?_, hag b hbne]
          intro hmem
          rcases List.mem_cons.mp hmem with he | hmem2
          · exact hbne he
          · exact hbl (hsub₁ b hmem2)
      | some fe =>
          obtain ⟨k₂, wb⟩ := fe
          have hk₂ : k₂ = k := by
            have := List.find?_some hfind
            simpa using this
          subst k₂
          have hfindLive : (en.filter
              (fun e => (((k, vo1) :: orest).map Prod.fst).contains e.1)).find?
                (fun e => e.1 == k) = Option.some (k, wb) := by
            rw [find?_filter_of_imp _ _ hkeyimp en]
            exact hfind
          obtain ⟨pre, post, hsplit, hprefalse⟩ := find?_split _ _ _ hfindLive
          rw [hsplit] at hlive
          obtain ⟨kpre, krest, F1, Frest2, hkvs, hFLsplit, hreppre, hreprest, hd12⟩ :=
            reprE_append_inv pre s ((k, wb) :: post) kvsLive FL hlive
          obtain ⟨w1, kpost, Fwb, F2, hkrest, hw1, hreppost, hdwb2, hFrest2⟩ :=
            reprE_cons_inv s k wb post krest Frest2 hreprest
          have hw1size : psize w1 ≤ psizeE kvsLive := by
            rw [hkvs, hkrest, psizeE_append, psizeE_cons]
            have := psize_pos w1
            simp only []
            omega
          have hfchild : psize vo1 + psize w1 ≤ fuel := by omega
          have hdchild : ∀ x ∈ Fva, x ∉ Fwb := by
            intro x hx hxw
            refine hdisj x (List.mem_append_left Forest hx) ?_
            rw [hFLsplit, hFrest2]
            exact List.mem_append_right F1 (List.mem_append_left F2 hxw)
          obtain ⟨s₁, hmrun, hmframe⟩ := mergeS_frame vo1 w1 fuel s va wb Fva Fwb false
            hva hw1 hdchild hwf1.1 hfchild
          have hFwbFL : ∀ x ∈ Fwb, x ∈ FL := by
            intro x hx
            rw [hFLsplit, hFrest2]
            exact List.mem_append_right F1 (List.mem_append_left F2 hx)
          have hF1FL : ∀ x ∈ F1, x ∈ FL := by
            intro x hx
            rw [hFLsplit]
            exact List.mem_append_left Frest2 hx
          have hF2FL : ∀ x ∈ F2, x ∈ FL := by
            intro x hx
            rw [hFLsplit, hFrest2]
            exact List.mem_append_right F1 (List.mem_append_right Fwb hx)
          have horest₁ : ReprE s₁ erest orest Forest :=
            reprE_mono orest s s₁ erest Forest horest
              (fun b hb => hmframe b (fun hbw =>
                hdisj b (List.mem_append_right Fva hb) (hFwbFL b hbw)))
          have hget₁ : Store.get s₁ an = Option.some (Node.dictN en) := by
            rw [hmframe an (fun hmem => hanL (hFwbFL an hmem))]
            exact hgetan
          obtain ⟨F1', hpre', hsub1'⟩ := reprE_filterKeys kpre s pre F1
            (fun k2 => (orest.map Prod.fst).contains k2) hreppre
          obtain ⟨F2', hpost', hsub2'⟩ := reprE_filterKeys kpost s post F2
            (fun k2 => (orest.map Prod.fst).contains k2) hreppost
          have hcombine : ReprE s
              (pre.filter (fun e => (orest.map Prod.fst).contains e.1)
                ++ post.filter (fun e => (orest.map Prod.fst).contains e.1))
              (kpre.filter (fun e => (orest.map Prod.fst).contains e.1)
                ++ kpost.filter (fun e => (orest.map Prod.fst).contains e.1))
              (F1' ++ F2') :=
            reprE_append _ s _ _ _ F1' F2' hpre' hpost'
              (fun x hx hx2 => hd12 x (hsub1' x hx)
                (by rw [hFrest2]; exact List.mem_append_right Fwb (hsub2' x hx2)))
          have hfil₂ : en.filter (fun e => (orest.map Prod.fst).contains e.1)
              = pre.filter (fun e => (orest.map Prod.fst).contains e.1)
                ++ post.filter (fun e => (orest.map Prod.fst).contains e.1) := by
            rw [hfilshrink, hsplit, List.filter_append, List.filter_cons]
            simp [hcontk, hkxn]
          have hlive₁ : ReprE s₁ (en.filter (fun e => (orest.map Prod.fst).contains e.1))
              (kpre.filter (fun e => (orest.map Prod.fst).contains e.1)
                ++ kpost.filter (fun e => (orest.map Prod.fst).contains e.1))
              (F1' ++ F2') := by
            rw [hfil₂]
            refine reprE_mono _ s s₁ _ _ hcombine ?_
            intro b hb
            refine hmframe b ?_
            intro hbw
            rcases List.mem_append.mp hb with hb1 | hb2
            · exact hd12 b (hsub1' b hb1)
                (by rw [hFrest2]; exact List.mem_append_left F2 hbw)
            · exact hdwb2 b hbw (hsub2' b hb2)
          have hfl₂ : psizeE orest
              + psizeE (kpre.filter (fun e => (orest.map Prod.fst).contains e.1)
                ++ kpost.filter (fun e => (orest.map Prod.fst).contains e.1)) ≤ fuel := by
            rw [psizeE_append]
            have h1 := psizeE_filter_le kpre (fun e => (orest.map Prod.fst).contains e.1)
            have h2 := psizeE_filter_le kpost (fun e => (orest.map Prod.fst).contains e.1)
            have h3 : psizeE kvsLive = psizeE kpre + (psize w1 + psizeE kpost) := by
              rw [hkvs, hkrest, psizeE_append, psizeE_cons]
            omega
          obtain ⟨s', hrun, hframe⟩ := dictLoop_frame orest fuel s₁ an erest en
            (kpre.filter (fun e => (orest.map Prod.fst).contains e.1)
              ++ kpost.filter (fun e => (orest.map Prod.fst).contains e.1))
            Forest (F1' ++ F2') horest₁ hget₁ hlive₁ hndrest hwf1.2
            (fun x hx hxl => by
              rcases List.mem_append.mp hxl with h1 | h2
              · exact hdisj x (List.mem_append_right Fva hx) (hF1FL x (hsub1' x h1))
              · exact hdisj x (List.mem_append_right Fva hx) (hF2FL x (hsub2' x h2)))
            (fun hmem => hanO (List.mem_append_right Fva hmem))
            (fun hmem => by
              rcases List.mem_append.mp hmem with h1 | h2
              · exact hanL (hF1FL an (hsub1' an h1))
              · exact hanL (hF2FL an (hsub2' an h2))) hfl₂
          refine ⟨s', ?_, ?_⟩
          · have hred : dictLoopAux (fun s1 va2 wb2 => mergeS fuel s1 va2 wb2 false) an
                ((k, va) :: erest) s
                = (mergeS fuel s va wb false).bind
                    (fun s2 => dictLoopAux (fun s1 va2 wb2 => mergeS fuel s1 va2 wb2 false)
                      an erest s2) := by
              simp [dictLoopAux, hgetan, hfind]
            rw [hred, hmrun]
            exact hrun
          · intro b hb
            have hbne : b ≠ an := fun e => hb (e ▸ List.mem_cons_self an FL)
            have hbl : b ∉ FL := fun hmem => hb (List.mem_cons_of_mem an hmem)
            rw [hframe b ?_, hmframe b (fun hbw => hbl (hFwbFL b hbw))]
            intro hmem
            rcases List.mem_cons.mp hmem with he | hmem2
            · exact hbne he
            · rcases List.mem_append.mp hmem2 with h1 | h2
              · exact hbl (hF1FL b (hsub1' b h1))
              · exact hbl (hF2FL b (hsub2' b h2))

end

/-- C10 (amended): `object_merge` produces no value besides its effect
on `new` (`mergeS` returns only the updated store), and it never
modifies `old` provided the two inputs not only share no sub-structure
but are also internally non-aliased (each object graph is a tree, the
`ReprV` hypotheses) — with `old` a well-formed Python structure (dict
keys distinct).  Every cell of `old`'s graph is byte-for-byte unchanged
and `old` still represents its original value.  (As stated — requiring
only that `old` and `new` share no sub-structure — the claim is false:
when `new` aliases one of its own sub-objects under two keys, the merge
can write into `old`'s graph; see the counterexample.) -/
theorem object_merge_store_preserves_old
    (vo vn : PyVal) (fuel : Nat) (s : Store) (ao an : Addr) (Fo Fn : List Addr) (u : Bool)
    (ho : ReprV s ao vo Fo) (hn : ReprV s an vn Fn)
    (hdisj : ∀ x ∈ Fo, x ∉ Fn)
    (hwf : wfKeys vo = true)
    (hfuel : psize vo + psize vn ≤ fuel) :
    ∃ s', mergeS fuel s ao an u = Option.some s'
      ∧ (∀ b ∈ Fo, Store.get s' b = Store.get s b)
      ∧ ReprV s' ao vo Fo := by
  obtain ⟨s', hrun, hframe⟩ := mergeS_frame vo vn fuel s ao an Fo Fn u ho hn hdisj hwf hfuel
  have hold : ∀ b ∈ Fo, Store.get s' b = Store.get s b :=
    fun b hb => hframe b (hdisj b hb)
  exact ⟨s', hrun, hold, reprV_mono vo s s' ao Fo ho hold⟩

/-- Witness for C10's theorem: `old = {"a": 5}` at address 0 (cells 0
and 1), `new = {}` at address 2, disjoint tree-shaped graphs. -/
theorem object_merge_store_preserves_old_witness :
    ∃ s', mergeS 6 [(0, Node.dictN [("a", 1)]), (1, Node.intN 5), (2, Node.dictN [])]
        0 2 false = Option.some s'
      ∧ (∀ b ∈ [0, 1],
          Store.get s' b
            = Store.get [(0, Node.dictN [("a", 1)]), (1, Node.intN 5), (2, Node.dictN [])] b)
      ∧ ReprV s' 0 (PyVal.dict [("a", PyVal.int 5)]) [0, 1] :=
  object_merge_store_preserves_old (PyVal.dict [("a", PyVal.int 5)]) (PyVal.dict [])
    6 [(0, Node.dictN [("a", 1)]), (1, Node.intN 5), (2, Node.dictN [])] 0 2 [0, 1] [2] false
    ⟨[("a", 1)], [1], rfl, ⟨1, [], [1], [], rfl, ⟨rfl, rfl⟩, ⟨rfl, rfl⟩, by decide, rfl⟩,
      by decide, rfl⟩
    ⟨[], [], rfl, ⟨rfl, rfl⟩, by decide, rfl⟩
    (by decide) (by decide) (by decide)

/-- C10 counterexample: in `cexStore`, `old` (address 7) and `new`
(address 9) share no sub-structure — their reachable address sets are
disjoint — yet running the merge rewrites cell 1, which lies inside
`old`'s graph, because `new` aliases the same empty dict under both of
its keys.  Python equivalent: `old = {"a": {"x": {"p": 1}}, "b": {"x":
{"q": 2}}}`, `M = {}`, `new = {"a": M, "b": M}`; after
`object_merge(old, new)` the value `old["a"]["x"]` has become
`{"p": 1, "q": 2}` — `old` was modified. -/
theorem object_merge_store_mutates_old_cex :
    ((reachIn 10 cexStore 7).all (fun b => !((reachIn 10 cexStore 9).contains b)) = true)
    ∧ (mergeS 20 cexStore 7 9 false).map (fun s' => Store.get s' 1)
        = Option.some (Option.some (Node.dictN [("p", 2), ("q", 4)]))
    ∧ Store.get cexStore 1 = Option.some (Node.dictN [("p", 2)])
    ∧ Node.dictN [("p", 2)] ≠ Node.dictN [("p", 2), ("q", 4)] := by
  decide
